import Mathlib

/-!
Verification of the JSON-recovery extractor of this repository
(`src/utils/json_parser.py`, function `extract_json_from_string`, together
with the error-reporting collaborator `src/utils/error_tracker.py`).

Modelling conventions (shallow embedding):
  * Python strings are `List Char`; `None` inputs are `Option (List Char)`.
  * `json.loads` is embedded as a recursive-descent parser (`parseP`/`loadsL`)
    that follows the JSON grammar exactly as accepted by the Python `json`
    module with its default (strict, C-scanner) settings: whitespace is
    space/tab/LF/CR; numbers follow the regex
    `(-?(?:0|[1-9]\d*))(\.\d+)?([eE][-+]?\d+)?` with maximal munch; the
    constants NaN, Infinity and -Infinity are accepted; strings accept the
    standard escapes plus `\uXXXX` (strict four hex digits) with surrogate
    pair combination; unescaped control characters below 0x20 are rejected;
    objects and arrays are whitespace tolerant, and duplicate object keys
    keep the first position with the last value.
  * Floating point values are kept as their literal token: Python would
    re-serialize a float through `repr(float(tok))`; the claims under
    verification never depend on float formatting, only on whether a token
    parses, which the literal token preserves.
  * `json.dumps` with default arguments is embedded as `dumpsV`
    (separators ", " and ": ", `ensure_ascii` escaping with lowercase hex
    and surrogate pairs for astral code points).
  * The two regular expressions of the source are specialized to direct
    scanning functions (`fenceSearch`, `bracketSearch`); comments at the
    definitions record how leftmost search, ordered alternation and greedy
    `.*` under DOTALL are reflected.
  * Side effects are made explicit: `ExtractResult` records the returned
    value, the error records appended to the tracker (type tag, message,
    critical flag; the wall-clock timestamp and the unused `details`
    argument are omitted), and whether the `st.info` fallback notice fired.
-/

/-! ## Character classes and Python string helpers -/

/-- Whitespace as skipped by the Python `json` module (`' \t\n\r'`). -/
def jsonWs (c : Char) : Bool :=
  c = ' ' || c = '\t' || c = '\n' || c = '\r'

/-- Whitespace as understood by Python `str.strip()` and by `\s` in a `str`
regular expression (the `str.isspace` set of code points). -/
def pyWs (c : Char) : Bool :=
  [9, 10, 11, 12, 13, 28, 29, 30, 31, 32, 133, 160, 5760,
   8192, 8193, 8194, 8195, 8196, 8197, 8198, 8199, 8200, 8201, 8202,
   8232, 8233, 8239, 8287, 12288].contains c.toNat

/-- Skip leading JSON whitespace, as the `json` module does between tokens. -/
def skipWs (cs : List Char) : List Char := cs.dropWhile jsonWs

/-- Drop trailing characters satisfying a predicate. -/
def dropEndWhile (p : Char → Bool) (cs : List Char) : List Char :=
  (cs.reverse.dropWhile p).reverse

/-- Python `str.strip()`: remove leading and trailing whitespace. -/
def pyStrip (cs : List Char) : List Char :=
  dropEndWhile pyWs (cs.dropWhile pyWs)

/-- Python `str.find(c)`: index of the first occurrence, or -1. -/
def pyFind (cs : List Char) (c : Char) : Int :=
  match cs with
  | [] => -1
  | d :: r =>
    if d = c then 0
    else
      let t := pyFind r c
      if t < 0 then -1 else t + 1

/-- Python `str.rfind(c)`: index of the last occurrence, or -1. -/
def pyRfind (cs : List Char) (c : Char) : Int :=
  match cs with
  | [] => -1
  | d :: r =>
    let t := pyRfind r c
    if 0 ≤ t then t + 1
    else if d = c then 0 else -1

/-- Python slice `cs[a:b]` for the in-range nonnegative indices used by the
source (`cleaned[start:end+1]`); an empty list results when `b ≤ a`. -/
def pySliceN (cs : List Char) (a b : Nat) : List Char :=
  (cs.drop a).take (b - a)

/-! ## JSON values -/

/-- A JSON value as produced by Python `json.loads`: `int` for integer
literals, `float` keeping the numeric literal token (see the header note),
strings as lists of code points (Python `str` admits lone surrogates coming
from `\uXXXX` escapes, which `Char` cannot carry), objects as key/value
lists in insertion order. -/
inductive JVal where
  | null : JVal
  | bool (b : Bool) : JVal
  | int (n : Int) : JVal
  | float (tok : List Char) : JVal
  | str (cps : List Nat) : JVal
  | arr (elems : List JVal) : JVal
  | obj (mems : List (List Nat × JVal)) : JVal

/-! ## Serialization: `json.dumps` with default arguments -/

/-- Decimal digit character for a value below ten. -/
def digitChar (n : Nat) : Char := Char.ofNat (48 + n)

/-- Digit test matching `\d` over ASCII as used by the number regex. -/
def isDigit (c : Char) : Bool := 48 ≤ c.toNat && c.toNat ≤ 57

/-- Fuel-driven base-ten printer (the fuel argument only bounds recursion
depth; `natToDigits` supplies enough for any value). -/
def natToDigitsGo : Nat → Nat → List Char
  | 0, _ => []
  | fuel + 1, n =>
    if n < 10 then [digitChar n]
    else natToDigitsGo fuel (n / 10) ++ [digitChar (n % 10)]

/-- Base-ten digits of a natural number, no leading zeros (Python `str(int)`
for nonnegative values). -/
def natToDigits (n : Nat) : List Char := natToDigitsGo (n + 1) n

/-- Python `str(int)`, the serialization `json.dumps` uses for integers. -/
def intToChars (n : Int) : List Char :=
  if n < 0 then '-' :: natToDigits n.natAbs else natToDigits n.natAbs

/-- Lowercase hexadecimal digit, as produced by the `ensure_ascii` encoder. -/
def hexDigitChar (n : Nat) : Char :=
  if n < 10 then digitChar n else Char.ofNat (87 + n)

/-- Four lowercase hex digits of a value below 0x10000. -/
def toHex4 (n : Nat) : List Char :=
  [hexDigitChar (n / 4096 % 16), hexDigitChar (n / 256 % 16),
   hexDigitChar (n / 16 % 16), hexDigitChar (n % 16)]

/-- Escape one code point the way `json.dumps` (default `ensure_ascii=True`)
does: the short escapes, printable ASCII verbatim, `\uXXXX` for the rest,
and a surrogate pair for astral code points. -/
def escCp (cp : Nat) : List Char :=
  if cp = 34 then ['\\', '"']
  else if cp = 92 then ['\\', '\\']
  else if cp = 8 then ['\\', 'b']
  else if cp = 9 then ['\\', 't']
  else if cp = 10 then ['\\', 'n']
  else if cp = 12 then ['\\', 'f']
  else if cp = 13 then ['\\', 'r']
  else if 32 ≤ cp && cp < 127 then [Char.ofNat cp]
  else if cp < 65536 then '\\' :: 'u' :: toHex4 cp
  else
    '\\' :: 'u' :: toHex4 (55296 + (cp - 65536) / 1024) ++
      '\\' :: 'u' :: toHex4 (56320 + (cp - 65536) % 1024)

/-- Escape a whole string body. -/
def escStr (s : List Nat) : List Char :=
  s.foldr (fun cp acc => escCp cp ++ acc) []

mutual

/-- Embedding of `json.dumps(value)` with default arguments: separators
", " and ": ", keys in insertion order, `ensure_ascii` escaping. -/
def dumpsV : JVal → List Char
  | .null => ['n', 'u', 'l', 'l']
  | .bool b => if b then ['t', 'r', 'u', 'e'] else ['f', 'a', 'l', 's', 'e']
  | .int n => intToChars n
  | .float tok => tok
  | .str s => '"' :: (escStr s ++ ['"'])
  | .arr l => '[' :: dumpsArr l
  | .obj m => '{' :: dumpsObj m

/-- Elements of an array, comma-space separated, ending with the bracket. -/
def dumpsArr : List JVal → List Char
  | [] => [']']
  | [v] => dumpsV v ++ [']']
  | v :: w :: rest => dumpsV v ++ ',' :: ' ' :: dumpsArr (w :: rest)

/-- Members of an object, comma-space separated, ending with the brace. -/
def dumpsObj : List (List Nat × JVal) → List Char
  | [] => ['}']
  | [(k, v)] => '"' :: (escStr k ++ '"' :: ':' :: ' ' :: (dumpsV v ++ ['}']))
  | (k, v) :: m :: rest =>
    '"' :: (escStr k ++ '"' :: ':' :: ' ' :: (dumpsV v ++ ',' :: ' ' :: dumpsObj (m :: rest)))

end

/-! ## Parsing: `json.loads` with default arguments -/

/-- Value of one hexadecimal digit, either case (the C scanner of the
`json` module accepts exactly four hex digits after `\u`). -/
def hexDigitVal (c : Char) : Option Nat :=
  let n := c.toNat
  if 48 ≤ n && n ≤ 57 then some (n - 48)
  else if 97 ≤ n && n ≤ 102 then some (n - 87)
  else if 65 ≤ n && n ≤ 70 then some (n - 55)
  else none

/-- Value of a four-hex-digit escape body. -/
def hex4 (a b c d : Char) : Option Nat :=
  match hexDigitVal a, hexDigitVal b, hexDigitVal c, hexDigitVal d with
  | some x, some y, some z, some w => some (4096 * x + 256 * y + 16 * z + w)
  | _, _, _, _ => none

/-- The single-character string escapes accepted by the scanner. -/
def escSimple (c : Char) : Option Nat :=
  if c = '"' then some 34
  else if c = '\\' then some 92
  else if c = '/' then some 47
  else if c = 'b' then some 8
  else if c = 'f' then some 12
  else if c = 'n' then some 10
  else if c = 'r' then some 13
  else if c = 't' then some 9
  else none

/-- Prepend a decoded code point to a string-scan result. -/
def consCp (cp : Nat) : Option (List Nat × List Char) → Option (List Nat × List Char)
  | none => none
  | some (s, r) => some (cp :: s, r)

/-- High surrogate range test. -/
def isHighSurr (n : Nat) : Bool := 55296 ≤ n && n ≤ 56319

/-- Low surrogate range test. -/
def isLowSurr (n : Nat) : Bool := 56320 ≤ n && n ≤ 57343

/-- String scanner (`scanstring` of the `json` module, strict mode),
applied after the opening quote: plain characters at or above 0x20,
the short escapes, `\uXXXX` with surrogate pair combination, errors on
unescaped control characters, bad escapes and unterminated strings.
The fuel argument only bounds recursion depth; every recursive call
first consumes at least one character, so any fuel above the input
length is enough (`scanString` supplies it). -/
def scanStringF : Nat → List Char → Option (List Nat × List Char)
  | 0, _ => none
  | _ + 1, [] => none
  | fuel + 1, c :: r =>
    if c = '"' then some ([], r)
    else if c = '\\' then
      match r with
      | [] => none
      | e :: r2 =>
        if e = 'u' then
          match r2 with
          | h1 :: h2 :: h3 :: h4 :: r3 =>
            (match hex4 h1 h2 h3 h4 with
             | none => none
             | some cp =>
               if isHighSurr cp then
                 match r3 with
                 | b1 :: b2 :: rest4 =>
                   if b1 = '\\' && b2 = 'u' then
                     match rest4 with
                     | g1 :: g2 :: g3 :: g4 :: r5 =>
                       (match hex4 g1 g2 g3 g4 with
                        | none => none
                        | some cp2 =>
                          if isLowSurr cp2 then
                            consCp (65536 + (cp - 55296) * 1024 + (cp2 - 56320))
                              (scanStringF fuel r5)
                          else consCp cp (scanStringF fuel r3))
                     | _ => none
                   else consCp cp (scanStringF fuel r3)
                 | _ => consCp cp (scanStringF fuel r3)
               else consCp cp (scanStringF fuel r3))
          | _ => none
        else
          match escSimple e with
          | none => none
          | some cp => consCp cp (scanStringF fuel r2)
    else if c.toNat < 32 then none
    else consCp c.toNat (scanStringF fuel r)

/-- String scanner at its natural fuel. -/
def scanString (cs : List Char) : Option (List Nat × List Char) :=
  scanStringF (cs.length + 1) cs

/-- Numeric value of a digit string (most significant first). -/
def digitsVal (ds : List Char) : Nat :=
  ds.foldl (fun a c => a * 10 + (c.toNat - 48)) 0

/-- Integer part of the number regex, `(?:0|[1-9]\d*)` with maximal munch:
a lone zero, or a nonzero digit followed by all following digits. -/
def scanIntPart (cs : List Char) : Option (List Char × List Char) :=
  match cs with
  | [] => none
  | c :: r =>
    if c = '0' then some (['0'], r)
    else if isDigit c then some (c :: r.takeWhile isDigit, r.dropWhile isDigit)
    else none

/-- Optional fraction `(\.\d+)?`: consumed only when the dot is followed by
at least one digit, otherwise nothing is consumed. -/
def scanFrac (cs : List Char) : List Char × List Char :=
  match cs with
  | [] => ([], [])
  | c :: r =>
    if c = '.' then
      let ds := r.takeWhile isDigit
      if ds.isEmpty then ([], c :: r) else ('.' :: ds, r.dropWhile isDigit)
    else ([], c :: r)

/-- Optional exponent `([eE][-+]?\d+)?`: consumed only when digits follow,
otherwise nothing is consumed. -/
def scanExp (cs : List Char) : List Char × List Char :=
  match cs with
  | [] => ([], [])
  | c :: r =>
    if c = 'e' || c = 'E' then
      match r with
      | [] => ([], c :: r)
      | c2 :: r2 =>
        if c2 = '+' || c2 = '-' then
          let ds := r2.takeWhile isDigit
          if ds.isEmpty then ([], c :: r)
          else (c :: c2 :: ds, r2.dropWhile isDigit)
        else
          let ds := r.takeWhile isDigit
          if ds.isEmpty then ([], c :: r) else (c :: ds, r.dropWhile isDigit)
    else ([], c :: r)

/-- Unsigned tail of the number match; an integer literal yields a Python
`int`, any fraction or exponent yields a `float` keeping its token. -/
def scanNumCore (neg : Bool) (cs : List Char) : Option (JVal × List Char) :=
  match scanIntPart cs with
  | none => none
  | some (ip, r1) =>
    let fr := scanFrac r1
    let ex := scanExp fr.2
    if fr.1.isEmpty && ex.1.isEmpty then
      some (JVal.int (if neg then -(digitsVal ip : Int) else (digitsVal ip : Int)), r1)
    else
      some (JVal.float ((if neg then ['-'] else []) ++ ip ++ fr.1 ++ ex.1), ex.2)

/-- The number regex `(-?(?:0|[1-9]\d*))(\.\d+)?([eE][-+]?\d+)?` matched at
the current position with maximal munch. -/
def scanNumber (cs : List Char) : Option (JVal × List Char) :=
  match cs with
  | [] => none
  | c :: r => if c = '-' then scanNumCore true r else scanNumCore false (c :: r)

/-- Literal tokens recognized at value position. -/
def nullTok : List Char := ['n', 'u', 'l', 'l']

/-- Token of the `true` literal. -/
def trueTok : List Char := ['t', 'r', 'u', 'e']

/-- Token of the `false` literal. -/
def falseTok : List Char := ['f', 'a', 'l', 's', 'e']

/-- Token of the nonstandard `NaN` literal (accepted by default). -/
def nanTok : List Char := ['N', 'a', 'N']

/-- Token of the nonstandard `Infinity` literal. -/
def infTok : List Char := ['I', 'n', 'f', 'i', 'n', 'i', 't', 'y']

/-- Token of the nonstandard `-Infinity` literal. -/
def ninfTok : List Char := ['-', 'I', 'n', 'f', 'i', 'n', 'i', 't', 'y']

/-- Parser mode: a value, or the continuation of an array or object whose
earlier elements are in the accumulator (the scanner loops of `JSONArray`
and `JSONObject`). -/
inductive PMode where
  | value : PMode
  | arrTail (acc : List JVal) : PMode
  | objTail (acc : List (List Nat × JVal)) : PMode

/-- Insertion into a Python dict built from a pair list: a repeated key
keeps its first position and takes the last value. -/
def pyInsert (m : List (List Nat × JVal)) (k : List Nat) (v : JVal) :
    List (List Nat × JVal) :=
  match m with
  | [] => [(k, v)]
  | (k0, v0) :: rest =>
    if k0 = k then (k0, v) :: rest else (k0, v0) :: pyInsert rest k v

/-- Recursive-descent core of `json.loads`. The fuel argument only bounds
the recursion depth; every recursive call consumes at least one input
character first, so any fuel above the input length is enough (`loadsL`
supplies it). Dispatch and whitespace placement follow the scanner of the
`json` module: no whitespace skipping at value position, skipping inside
array and object syntax. -/
def parseP : Nat → PMode → List Char → Option (JVal × List Char)
  | 0, _, _ => none
  | fuel + 1, PMode.value, cs =>
    match cs with
    | [] => none
    | c :: r =>
      if c = '"' then (scanString r).map (fun p => (JVal.str p.1, p.2))
      else if c = '{' then
        (match skipWs r with
         | [] => none
         | c2 :: r2 =>
           if c2 = '}' then some (JVal.obj [], r2)
           else if c2 = '"' then
             match scanString r2 with
             | none => none
             | some (k, r3) =>
               (match skipWs r3 with
                | [] => none
                | c3 :: r4 =>
                  if c3 = ':' then
                    match parseP fuel PMode.value (skipWs r4) with
                    | none => none
                    | some (v, r5) => parseP fuel (PMode.objTail (pyInsert [] k v)) r5
                  else none)
           else none)
      else if c = '[' then
        (match skipWs r with
         | [] => none
         | c2 :: r2 =>
           if c2 = ']' then some (JVal.arr [], r2)
           else
             match parseP fuel PMode.value (c2 :: r2) with
             | none => none
             | some (v, r3) => parseP fuel (PMode.arrTail [v]) r3)
      else if nullTok.isPrefixOf (c :: r) then some (JVal.null, r.drop 3)
      else if trueTok.isPrefixOf (c :: r) then some (JVal.bool true, r.drop 3)
      else if falseTok.isPrefixOf (c :: r) then some (JVal.bool false, r.drop 4)
      else if nanTok.isPrefixOf (c :: r) then some (JVal.float nanTok, r.drop 2)
      else if infTok.isPrefixOf (c :: r) then some (JVal.float infTok, r.drop 7)
      else if ninfTok.isPrefixOf (c :: r) then some (JVal.float ninfTok, r.drop 8)
      else scanNumber (c :: r)
  | fuel + 1, PMode.arrTail acc, cs =>
    (match skipWs cs with
     | [] => none
     | c :: r =>
       if c = ']' then some (JVal.arr acc, r)
       else if c = ',' then
         match parseP fuel PMode.value (skipWs r) with
         | none => none
         | some (v, r2) => parseP fuel (PMode.arrTail (acc ++ [v])) r2
       else none)
  | fuel + 1, PMode.objTail acc, cs =>
    (match skipWs cs with
     | [] => none
     | c :: r =>
       if c = '}' then some (JVal.obj acc, r)
       else if c = ',' then
         match skipWs r with
         | [] => none
         | c2 :: r2 =>
           if c2 = '"' then
             match scanString r2 with
             | none => none
             | some (k, r3) =>
               (match skipWs r3 with
                | [] => none
                | c3 :: r4 =>
                  if c3 = ':' then
                    match parseP fuel PMode.value (skipWs r4) with
                    | none => none
                    | some (v, r5) => parseP fuel (PMode.objTail (pyInsert acc k v)) r5
                  else none)
           else none
       else none)

/-- Embedding of `json.loads`: skip leading whitespace, read one value,
require only whitespace after it. -/
def loadsL (cs : List Char) : Option JVal :=
  match parseP (cs.length + 1) PMode.value (skipWs cs) with
  | none => none
  | some (v, rest) => if skipWs rest = [] then some v else none

/-! ## The two regular expression searches of the source

The source uses `re.search` with two fixed patterns; both are specialized
here to direct scans with the same semantics.

For `bracket_pattern`, the raw pattern with `re.DOTALL` tries, at each
starting position from the left, first the brace branch and then the
bracket branch; a branch matches exactly when the position holds its
opening character and its closing character occurs later, and the greedy
dot-star then extends the match to the last occurrence of that closing
character in the whole remaining text. -/

/-- Prefix of `cs` up to and including the last occurrence of `c`
(empty when `c` does not occur). -/
def upToLast (c : Char) (cs : List Char) : List Char :=
  (cs.reverse.dropWhile (fun d => !(d = c))).reverse

/-- Specialization of `re.search(bracket_pattern, text, re.DOTALL)` for
`bracket_pattern = (\{.*\}|\[.*\])`, returning the matched span. -/
def bracketSearch : List Char → Option (List Char)
  | [] => none
  | c :: r =>
    if c = '{' && r.contains '}' then some ('{' :: upToLast '}' r)
    else if c = '[' && r.contains ']' then some ('[' :: upToLast ']' r)
    else bracketSearch r

/-! For `json_pattern = [backtick][backtick][backtick](?:json)?\s*(\{.*\}|\[.*\])\s*[backtick][backtick][backtick]`
with `re.DOTALL | re.IGNORECASE`: at each starting position the three
backticks are literal; the optional tag consumes a case-insensitive
`json` when present (when it is absent after consuming, backtracking to
the unconsumed alternative is also tried); `\s*` before the group is
forced to consume the whole whitespace run because the group must begin
with an opening brace or bracket, which is not whitespace; the greedy
dot-star inside the group ends at the last closing character that is
followed by whitespace and three backticks; both `\s` and the leftmost
scan are as in the source flags. -/

/-- Three literal backticks at the head. -/
def startsTicks (cs : List Char) : Bool :=
  match cs with
  | '`' :: '`' :: '`' :: _ => true
  | _ => false

/-- The trailing context `\s*` then three backticks required after the
group's closing character. -/
def fenceClose (cs : List Char) : Bool :=
  startsTicks (cs.dropWhile pyWs)

/-- Longest prefix ending at a closing character whose trailing context
closes the fence; this is where the greedy dot-star of the group stops. -/
def fenceGroupTail (closer : Char) : List Char → Option (List Char)
  | [] => none
  | c :: r =>
    match fenceGroupTail closer r with
    | some res => some (c :: res)
    | none => if c = closer && fenceClose r then some [c] else none

/-- Group match (`\{.*\}|\[.*\]` then `\s*` then the closing ticks)
attempted after the optional tag: skip the whitespace run, then the
branch selected by the opening character. -/
def fenceBody (cs : List Char) : Option (List Char) :=
  match cs.dropWhile pyWs with
  | '{' :: r => (fenceGroupTail '}' r).map (fun t => '{' :: t)
  | '[' :: r => (fenceGroupTail ']' r).map (fun t => '[' :: t)
  | _ => none

/-- Case-insensitive `json` tag test. -/
def lower4json (cs : List Char) : Bool :=
  match cs with
  | a :: b :: c :: d :: _ =>
    a.toLower = 'j' && b.toLower = 's' && c.toLower = 'o' && d.toLower = 'n'
  | _ => false

/-- One attempt of the fence pattern anchored at the current position:
literal ticks, greedy optional tag with backtracking, then the group. -/
def fenceTryAt (cs : List Char) : Option (List Char) :=
  if startsTicks cs then
    let afterTicks := cs.drop 3
    if lower4json afterTicks then
      match fenceBody (afterTicks.drop 4) with
      | some g => some g
      | none => fenceBody afterTicks
    else fenceBody afterTicks
  else none

/-- Specialization of `re.search(json_pattern, text, re.DOTALL | re.IGNORECASE)`,
returning capture group 1 of the leftmost match. -/
def fenceSearch : List Char → Option (List Char)
  | [] => none
  | c :: r =>
    match fenceTryAt (c :: r) with
    | some g => some g
    | none => fenceSearch r

/-! ## The extractor `extract_json_from_string` -/

/-- One record appended by `ErrorTracker.add_error` (type tag, message,
critical flag; timestamp and the unused details argument omitted). -/
structure ErrRec where
  typ : String
  msg : String
  critical : Bool
deriving DecidableEq

/-- Record emitted for empty input (note the source passes `True` for the
critical positional argument). -/
def emptyErr : ErrRec :=
  ⟨"parse_error", "Empty response received from API.", true⟩

/-- Record emitted when strategy 4 finds no bracket structure at all. -/
def notFoundErr : ErrRec :=
  ⟨"json_error", "Could not find a valid JSON structure in the response.", true⟩

/-- Record emitted when the strategy 4 candidate fails to parse. -/
def allFailedErr : ErrRec :=
  ⟨"json_error", "All JSON extraction strategies failed. The response is not valid JSON.", true⟩

/-- Observable outcome of one extractor call: the returned value, the
error records appended to the tracker, and whether the `st.info`
fallback notice fired. -/
structure ExtractResult where
  ret : Option (List Char)
  errors : List ErrRec
  infoShown : Bool
deriving DecidableEq

/-- Outcome of a successful strategy: the parsed value, re-serialized,
with no side effects. -/
def okRes (v : JVal) : ExtractResult := ⟨some (dumpsV v), [], false⟩

/-- The try/except pattern shared by every strategy of the source:
parse the candidate, return the normalized serialization on success,
fall through otherwise. -/
def tryNorm (cand : List Char) (fallback : ExtractResult) : ExtractResult :=
  match loadsL cand with
  | some v => okRes v
  | none => fallback

/-- Strategy 4 of the source: find the first opening and last closing
characters in the stripped text, slice by the brace/bracket decision
chain, and try to parse the slice. -/
def stage4 (cs : List Char) (d : Option (List Char)) : ExtractResult :=
  let cleaned := pyStrip cs
  let sb := pyFind cleaned '{'
  let sk := pyFind cleaned '['
  let eb := pyRfind cleaned '}'
  let ek := pyRfind cleaned ']'
  if 0 ≤ sb ∧ 0 ≤ eb ∧ (sk < 0 ∨ sb < sk) then
    tryNorm (pySliceN cleaned sb.toNat (eb.toNat + 1)) ⟨d, [allFailedErr], d.isSome⟩
  else if 0 ≤ sk ∧ 0 ≤ ek then
    tryNorm (pySliceN cleaned sk.toNat (ek.toNat + 1)) ⟨d, [allFailedErr], d.isSome⟩
  else
    ⟨d, [notFoundErr], d.isSome⟩

/-- Strategy 3 of the source: first greedy brace-or-bracket span. -/
def stage3 (cs : List Char) (d : Option (List Char)) : ExtractResult :=
  match bracketSearch cs with
  | some m => tryNorm (pyStrip m) (stage4 cs d)
  | none => stage4 cs d

/-- Strategy 2 of the source: parse the whole stripped text. -/
def stage2 (cs : List Char) (d : Option (List Char)) : ExtractResult :=
  tryNorm (pyStrip cs) (stage3 cs d)

/-- Strategy 1 of the source: the markdown fence pattern. -/
def stage1 (cs : List Char) (d : Option (List Char)) : ExtractResult :=
  match fenceSearch cs with
  | some g => tryNorm (pyStrip g) (stage2 cs d)
  | none => stage2 cs d

/-- Embedding of `extract_json_from_string(text, default_structure)` of
`src/utils/json_parser.py`, with its side effects made explicit. -/
def extract_json_from_string (text : Option (List Char))
    (default_structure : Option (List Char)) : ExtractResult :=
  match text with
  | none => ⟨default_structure, [emptyErr], false⟩
  | some [] => ⟨default_structure, [emptyErr], false⟩
  | some (c :: r) => stage1 (c :: r) default_structure

/-! ## Shape of every extractor outcome -/

/-- Every strategy attempt either succeeds with a normalized value or
passes its fallback through. -/
theorem tryNorm_shape (cand : List Char) (k : ExtractResult) :
    (∃ v, loadsL cand = some v ∧ tryNorm cand k = okRes v) ∨
    (loadsL cand = none ∧ tryNorm cand k = k) := by
  unfold tryNorm
  cases h : loadsL cand with
  | none => exact Or.inr ⟨rfl, rfl⟩
  | some v => exact Or.inl ⟨v, rfl, rfl⟩

/-- Like `tryNorm_shape`, specialized to the strategy 4 fallback. -/
theorem tryNorm_fail_shape (cand : List Char) (d : Option (List Char)) :
    (∃ v, loadsL cand = some v ∧
      tryNorm cand ⟨d, [allFailedErr], d.isSome⟩ = okRes v) ∨
    tryNorm cand ⟨d, [allFailedErr], d.isSome⟩ = ⟨d, [allFailedErr], d.isSome⟩ := by
  rcases tryNorm_shape cand ⟨d, [allFailedErr], d.isSome⟩ with ⟨v, hv, he⟩ | ⟨_, he⟩
  · exact Or.inl ⟨v, hv, he⟩
  · exact Or.inr he

/-- Strategy 4 ends in a normalized success, the all-failed report, or the
no-structure report. -/
theorem stage4_shape (cs : List Char) (d : Option (List Char)) :
    (∃ cand v, loadsL cand = some v ∧ stage4 cs d = okRes v) ∨
    stage4 cs d = ⟨d, [notFoundErr], d.isSome⟩ ∨
    stage4 cs d = ⟨d, [allFailedErr], d.isSome⟩ := by
  unfold stage4
  dsimp only
  split
  · rcases tryNorm_fail_shape
        (pySliceN (pyStrip cs) (pyFind (pyStrip cs) '{').toNat
          ((pyRfind (pyStrip cs) '}').toNat + 1)) d with ⟨v, hv, he⟩ | he
    · exact Or.inl ⟨_, v, hv, he⟩
    · exact Or.inr (Or.inr he)
  · split
    · rcases tryNorm_fail_shape
          (pySliceN (pyStrip cs) (pyFind (pyStrip cs) '[').toNat
            ((pyRfind (pyStrip cs) ']').toNat + 1)) d with ⟨v, hv, he⟩ | he
      · exact Or.inl ⟨_, v, hv, he⟩
      · exact Or.inr (Or.inr he)
    · exact Or.inr (Or.inl rfl)

/-- Strategy 3 either succeeds with a normalized value or ends as
strategy 4 does. -/
theorem stage3_shape (cs : List Char) (d : Option (List Char)) :
    (∃ cand v, loadsL cand = some v ∧ stage3 cs d = okRes v) ∨
    stage3 cs d = ⟨d, [notFoundErr], d.isSome⟩ ∨
    stage3 cs d = ⟨d, [allFailedErr], d.isSome⟩ := by
  unfold stage3
  cases hb : bracketSearch cs with
  | none => exact stage4_shape cs d
  | some m =>
    dsimp only
    rcases tryNorm_shape (pyStrip m) (stage4 cs d) with ⟨v, hv, he⟩ | ⟨_, he⟩
    · exact Or.inl ⟨_, v, hv, he⟩
    · rw [he]; exact stage4_shape cs d

/-- Strategy 2 either succeeds with a normalized value or ends as the
later strategies do. -/
theorem stage2_shape (cs : List Char) (d : Option (List Char)) :
    (∃ cand v, loadsL cand = some v ∧ stage2 cs d = okRes v) ∨
    stage2 cs d = ⟨d, [notFoundErr], d.isSome⟩ ∨
    stage2 cs d = ⟨d, [allFailedErr], d.isSome⟩ := by
  unfold stage2
  rcases tryNorm_shape (pyStrip cs) (stage3 cs d) with ⟨v, hv, he⟩ | ⟨_, he⟩
  · exact Or.inl ⟨_, v, hv, he⟩
  · rw [he]; exact stage3_shape cs d

/-- Strategy 1 either succeeds with a normalized value or ends as the
later strategies do. -/
theorem stage1_shape (cs : List Char) (d : Option (List Char)) :
    (∃ cand v, loadsL cand = some v ∧ stage1 cs d = okRes v) ∨
    stage1 cs d = ⟨d, [notFoundErr], d.isSome⟩ ∨
    stage1 cs d = ⟨d, [allFailedErr], d.isSome⟩ := by
  unfold stage1
  cases hb : fenceSearch cs with
  | none => exact stage2_shape cs d
  | some g =>
    dsimp only
    rcases tryNorm_shape (pyStrip g) (stage2 cs d) with ⟨v, hv, he⟩ | ⟨_, he⟩
    · exact Or.inl ⟨_, v, hv, he⟩
    · rw [he]; exact stage2_shape cs d

/-- Every outcome of the extractor: a side-effect-free normalized success
whose value came out of the JSON parser, or the default together with
exactly one of the three error reports. -/
theorem extract_shape (text : Option (List Char)) (d : Option (List Char)) :
    (∃ cand v, loadsL cand = some v ∧
      extract_json_from_string text d = okRes v) ∨
    extract_json_from_string text d = ⟨d, [notFoundErr], d.isSome⟩ ∨
    extract_json_from_string text d = ⟨d, [allFailedErr], d.isSome⟩ ∨
    extract_json_from_string text d = ⟨d, [emptyErr], false⟩ := by
  match text with
  | none => exact Or.inr (Or.inr (Or.inr rfl))
  | some [] => exact Or.inr (Or.inr (Or.inr rfl))
  | some (c :: r) =>
    rcases stage1_shape (c :: r) d with h | h | h
    · exact Or.inl h
    · exact Or.inr (Or.inl h)
    · exact Or.inr (Or.inr (Or.inl h))

/-! ## Concrete texts used by the claims -/

/-- Text with two sibling top-level JSON objects separated by prose. -/
def twoSiblingText : List Char :=
  ['{', '"', 'a', '"', ':', '1', '}', ' ', 'a', 'n', 'd', ' ', 'a', 'l',
   's', 'o', ' ', '{', '"', 'b', '"', ':', '2', '}']

/-- Prose before and after a single well-formed JSON object, no fences. -/
def proseText : List Char :=
  ['H', 'e', 'r', 'e', ' ', 'y', 'o', 'u', ' ', 'g', 'o', ':', '\n',
   '{', '"', 's', 'c', 'o', 'r', 'e', '"', ':', ' ', '4', '2', ',', ' ',
   '"', 't', 'a', 'g', 's', '"', ':', ' ', '[', '"', 'x', '"', ',', '"',
   'y', '"', ']', '}', '\n',
   'H', 'o', 'p', 'e', ' ', 't', 'h', 'i', 's', ' ', 'h', 'e', 'l', 'p',
   's', '!']

/-- Canonical serialization recovered from `proseText`. -/
def proseOut : List Char :=
  ['{', '"', 's', 'c', 'o', 'r', 'e', '"', ':', ' ', '4', '2', ',', ' ',
   '"', 't', 'a', 'g', 's', '"', ':', ' ', '[', '"', 'x', '"', ',', ' ',
   '"', 'y', '"', ']', '}']

/-! ## Claims C4, C5, C6, C8, C9, C10 -/

/-- C4: the extractor never lets a failure escape to the caller: for every
text (string or null) and every default, each parse failure inside a
strategy is absorbed locally, and the call always returns either the
normalized re-serialization of a parsed value or the substitute default
value (the embedding is a total function; the `except json.JSONDecodeError`
handlers of the source appear as the `none` branches of `tryNorm`). -/
theorem extract_absorbs_all_failures (text d : Option (List Char)) :
    (∃ v, (extract_json_from_string text d).ret = some (dumpsV v)) ∨
    (extract_json_from_string text d).ret = d := by
  rcases extract_shape text d with ⟨_, v, _, he⟩ | he | he | he
  · exact Or.inl ⟨v, by rw [he]; rfl⟩
  all_goals exact Or.inr (by rw [he])

/-- C5: for every default (including null), extracting from null and from
the empty string returns the default unchanged, after reporting one
extraction failure whose classification is the "parse_error" tag. -/
theorem extract_empty_input_returns_default (d : Option (List Char)) :
    extract_json_from_string none d = ⟨d, [emptyErr], false⟩ ∧
    extract_json_from_string (some []) d = ⟨d, [emptyErr], false⟩ ∧
    emptyErr.typ = "parse_error" :=
  ⟨rfl, rfl, rfl⟩

set_option maxRecDepth 8000 in
/-- C6: on text holding two sibling top-level JSON objects separated by
prose, the greedy span runs from the first brace to the last brace and
covers both objects plus the separator, every strategy fails to parse its
candidate, and the call returns the default (with the total-failure
report). -/
theorem two_sibling_objects_fall_through (d : Option (List Char)) :
    bracketSearch twoSiblingText = some twoSiblingText ∧
    extract_json_from_string (some twoSiblingText) d =
      ⟨d, [allFailedErr], d.isSome⟩ :=
  ⟨rfl, rfl⟩

set_option maxRecDepth 8000 in
/-- C8: prose before and after a single well-formed JSON object with no
fences is recovered by the bracket-span strategy and returned in canonical
serialization, for every default. -/
theorem prose_wrapped_object_recovered (d : Option (List Char)) :
    extract_json_from_string (some proseText) d = ⟨some proseOut, [], false⟩ :=
  rfl

/-- C9 counterexample: the claim says the empty/null-input failure is
reported as non-fatal, but the source passes `True` for the critical
positional argument of `add_error`; the report for null input carries
the critical flag. -/
theorem empty_input_reported_critical :
    (extract_json_from_string none none).errors = [emptyErr] ∧
    emptyErr.critical = true ∧ emptyErr.typ = "parse_error" :=
  ⟨rfl, rfl, rfl⟩

/-- C9 amended: per call at most one error record is appended: none on
success, the parse-error record on empty/null input, or one of the two
json-error records on total failure; individual strategy misses are never
reported; and every appended record (the empty-input one included, which
is where the original claim fails) carries the critical flag. -/
theorem extract_error_reporting (text d : Option (List Char)) :
    ((extract_json_from_string text d).errors = [] ∨
     (extract_json_from_string text d).errors = [emptyErr] ∨
     (extract_json_from_string text d).errors = [notFoundErr] ∨
     (extract_json_from_string text d).errors = [allFailedErr]) ∧
    ∀ e ∈ (extract_json_from_string text d).errors, e.critical = true := by
  rcases extract_shape text d with ⟨_, _, _, he⟩ | he | he | he
  · refine ⟨Or.inl (by rw [he]; rfl), ?_⟩
    rw [he]; intro e h; simp [okRes] at h
  · refine ⟨Or.inr (Or.inr (Or.inl (by rw [he]))), ?_⟩
    rw [he]; intro e h; simp at h; subst h; rfl
  · refine ⟨Or.inr (Or.inr (Or.inr (by rw [he]))), ?_⟩
    rw [he]; intro e h; simp at h; subst h; rfl
  · refine ⟨Or.inr (Or.inl (by rw [he])), ?_⟩
    rw [he]; intro e h; simp at h; subst h; rfl

/-- C10: side effects happen only on failure paths: every call either
returns a successfully recovered, re-serialized JSON value with the error
tracker untouched and no fallback notice shown, or it returns the default
while reporting; a call that returns a recovered value leaves the
collaborator state unchanged. -/
theorem extract_success_frame (text d : Option (List Char)) :
    (∃ v, extract_json_from_string text d = okRes v) ∨
    ((extract_json_from_string text d).ret = d ∧
      (extract_json_from_string text d).errors ≠ []) := by
  rcases extract_shape text d with ⟨_, v, _, he⟩ | he | he | he
  · exact Or.inl ⟨v, he⟩
  all_goals exact Or.inr ⟨by rw [he], by rw [he]; simp⟩

/-! ## Toolkit: characters, scanning and whitespace facts -/

/-- Every `Char` carries a valid code point. -/
theorem char_toNat_lt (c : Char) : c.toNat < 1114112 := by
  rcases c.valid with h | ⟨_, h2⟩
  · exact lt_trans h (by norm_num)
  · exact h2

/-- Code points below the surrogate range survive `Char.ofNat`. -/
theorem toNat_ofNat_of_lt {n : Nat} (h : n < 55296) : (Char.ofNat n).toNat = n := by
  have hv : n.isValidChar := Or.inl h
  simp only [Char.ofNat, hv, dif_pos, Char.ofNatAux, Char.toNat, UInt32.ofNat']
  rfl

/-- Characters with different code points differ. -/
theorem char_ne_of_toNat_ne {c d : Char} (h : c.toNat ≠ d.toNat) : c ≠ d :=
  fun he => h (he ▸ rfl)

/-- A `takeWhile` over a satisfied block stops exactly at a failing head. -/
theorem takeWhile_app {p : Char → Bool} (l r : List Char)
    (hl : ∀ c ∈ l, p c = true) (hr : ∀ c, r.head? = some c → p c = false) :
    (l ++ r).takeWhile p = l := by
  induction l with
  | nil =>
    cases r with
    | nil => rfl
    | cons c t => simp [List.takeWhile, hr c rfl]
  | cons a l ih =>
    have ha := hl a (by simp)
    simp only [List.cons_append, List.takeWhile, ha]
    simp [ih (fun c hc => hl c (by simp [hc]))]

/-- A `dropWhile` over a satisfied block stops exactly at a failing head. -/
theorem dropWhile_app {p : Char → Bool} (l r : List Char)
    (hl : ∀ c ∈ l, p c = true) (hr : ∀ c, r.head? = some c → p c = false) :
    (l ++ r).dropWhile p = r := by
  induction l with
  | nil =>
    cases r with
    | nil => rfl
    | cons c t => simp [List.dropWhile, hr c rfl]
  | cons a l ih =>
    have ha := hl a (by simp)
    simp only [List.cons_append, List.dropWhile, ha]
    exact ih (fun c hc => hl c (by simp [hc]))

/-- Skipping whitespace does nothing at a non-whitespace head. -/
theorem skipWs_cons_of_not_ws {c : Char} (t : List Char) (h : jsonWs c = false) :
    skipWs (c :: t) = c :: t := by
  simp [skipWs, List.dropWhile, h]

/-- Skipping whitespace over a whitespace head continues. -/
theorem skipWs_cons_of_ws {c : Char} (t : List Char) (h : jsonWs c = true) :
    skipWs (c :: t) = skipWs t := by
  simp [skipWs, List.dropWhile, h]

/-- The rest tokens allowed to follow a serialized value inside a larger
serialization: nothing, or a separator or closer. -/
def SepOk (rest : List Char) : Prop :=
  rest = [] ∨ ∃ c r, rest = c :: r ∧ (c = ',' ∨ c = ']' ∨ c = '}')

/-- An empty rest is an allowed continuation. -/
theorem sepOk_nil : SepOk [] := Or.inl rfl

/-- A separator head is an allowed continuation. -/
theorem sepOk_comma (r : List Char) : SepOk (',' :: r) :=
  Or.inr ⟨',', r, rfl, Or.inl rfl⟩

/-- A closing bracket head is an allowed continuation. -/
theorem sepOk_rbrack (r : List Char) : SepOk (']' :: r) :=
  Or.inr ⟨']', r, rfl, Or.inr (Or.inl rfl)⟩

/-- A closing brace head is an allowed continuation. -/
theorem sepOk_rbrace (r : List Char) : SepOk ('}' :: r) :=
  Or.inr ⟨'}', r, rfl, Or.inr (Or.inr rfl)⟩

/-- The head of an allowed continuation is not a digit and does not extend
a number token. -/
theorem sepOk_head {rest : List Char} (h : SepOk rest) (c : Char)
    (hc : rest.head? = some c) :
    isDigit c = false ∧ c ≠ '.' ∧ c ≠ 'e' ∧ c ≠ 'E' := by
  rcases h with h | ⟨d, r, rfl, hd⟩
  · subst h; simp at hc
  · simp at hc
    subst hc
    rcases hd with rfl | rfl | rfl <;> exact ⟨by decide, by decide, by decide, by decide⟩

/-! ## Digits, hexadecimal and number token shapes -/

/-- Code point of a digit character. -/
theorem digitChar_toNat {k : Nat} (h : k ≤ 9) : (digitChar k).toNat = 48 + k :=
  toNat_ofNat_of_lt (by omega)

/-- Digit characters are digits. -/
theorem isDigit_digitChar {k : Nat} (h : k ≤ 9) : isDigit (digitChar k) = true := by
  simp [isDigit, digitChar_toNat h]
  omega

/-- A nonzero digit character is not the zero digit. -/
theorem digitChar_ne_zero {k : Nat} (h1 : 1 ≤ k) (h2 : k ≤ 9) :
    digitChar k ≠ '0' := by
  apply char_ne_of_toNat_ne
  rw [digitChar_toNat h2]
  show 48 + k ≠ 48
  omega

/-- Specification of the base-ten printer: nonempty, all digits, and no
leading zero for a positive value. -/
theorem natToDigitsGo_spec :
    ∀ fuel n, n < 10 ^ fuel → 1 ≤ fuel →
      natToDigitsGo fuel n ≠ [] ∧
      (∀ c ∈ natToDigitsGo fuel n, isDigit c = true) ∧
      (1 ≤ n → (natToDigitsGo fuel n).head? ≠ some '0') := by
  intro fuel
  induction fuel with
  | zero => intro n _ h1; omega
  | succ fuel ih =>
    intro n hn _
    by_cases h10 : n < 10
    · refine ⟨by simp [natToDigitsGo, h10], ?_, ?_⟩
      · intro c hc
        simp [natToDigitsGo, h10] at hc
        subst hc
        exact isDigit_digitChar (by omega)
      · intro h1 hc
        simp [natToDigitsGo, h10] at hc
        exact digitChar_ne_zero h1 (by omega) hc
    · have hdiv : n / 10 < 10 ^ fuel := by
        have := Nat.pow_succ 10 fuel
        omega
      have hfuel : 1 ≤ fuel := by
        by_contra hf
        have : fuel = 0 := by omega
        subst this
        simp at hn
        omega
      obtain ⟨hne, hdig, hzero⟩ := ih (n / 10) hdiv hfuel
      refine ⟨by simp [natToDigitsGo, h10], ?_, ?_⟩
      · intro c hc
        simp [natToDigitsGo, h10] at hc
        rcases hc with hc | hc
        · exact hdig c hc
        · subst hc
          exact isDigit_digitChar (by omega)
      · intro _ hc
        have hd10 : 1 ≤ n / 10 := by omega
        rw [natToDigitsGo] at hc
        simp only [if_neg h10] at hc
        rcases he : natToDigitsGo fuel (n / 10) with _ | ⟨a, t⟩
        · exact hne he
        · rw [he] at hc
          simp at hc
          exact hzero hd10 (by rw [he]; simp [hc])

/-- Specification of `natToDigits`. -/
theorem natToDigits_spec (n : Nat) :
    natToDigits n ≠ [] ∧
    (∀ c ∈ natToDigits n, isDigit c = true) ∧
    (1 ≤ n → (natToDigits n).head? ≠ some '0') := by
  have hp : n < 10 ^ (n + 1) :=
    lt_trans (Nat.lt_pow_self (by norm_num) n)
      (Nat.pow_lt_pow_right (by norm_num) (by omega))
  exact natToDigitsGo_spec (n + 1) n hp (by omega)

/-- Hex digits print and rescan to themselves. -/
theorem hexDigitVal_hexDigitChar {k : Nat} (h : k < 16) :
    hexDigitVal (hexDigitChar k) = some k := by
  interval_cases k <;> decide

/-- A printed four-digit hex escape body rescans to its value. -/
theorem hex4_toHex4 {n : Nat} (h : n < 65536) :
    hex4 (hexDigitChar (n / 4096 % 16)) (hexDigitChar (n / 256 % 16))
      (hexDigitChar (n / 16 % 16)) (hexDigitChar (n % 16)) = some n := by
  rw [hex4, hexDigitVal_hexDigitChar (Nat.mod_lt _ (by norm_num)),
    hexDigitVal_hexDigitChar (Nat.mod_lt _ (by norm_num)),
    hexDigitVal_hexDigitChar (Nat.mod_lt _ (by norm_num)),
    hexDigitVal_hexDigitChar (Nat.mod_lt _ (by norm_num))]
  dsimp only
  have harith : 4096 * (n / 4096 % 16) + 256 * (n / 256 % 16) +
      16 * (n / 16 % 16) + n % 16 = n := by omega
  rw [harith]

/-! ## Well-formed values: what the parser can produce -/

/-- A nonempty all-digit run. -/
def goodDigits (ds : List Char) : Prop :=
  ds ≠ [] ∧ ∀ c ∈ ds, isDigit c = true

/-- Shape of the integer part of a number token. -/
def IntPartOk (ip : List Char) : Prop :=
  ip = ['0'] ∨
  ∃ d ds, ip = d :: ds ∧ isDigit d = true ∧ d ≠ '0' ∧ ∀ c ∈ ds, isDigit c = true

/-- Shape of the optional fraction of a number token. -/
def FracOk (fp : List Char) : Prop :=
  fp = [] ∨ ∃ ds, fp = '.' :: ds ∧ goodDigits ds

/-- Shape of the optional exponent of a number token. -/
def ExpOk (ep : List Char) : Prop :=
  ep = [] ∨ ∃ e sg ds, ep = e :: (sg ++ ds) ∧ (e = 'e' ∨ e = 'E') ∧
    (sg = [] ∨ sg = ['+'] ∨ sg = ['-']) ∧ goodDigits ds

/-- Tokens the parser stores in a `JVal.float`. -/
def FloatTokOk (tok : List Char) : Prop :=
  tok = nanTok ∨ tok = infTok ∨ tok = ninfTok ∨
  ∃ (neg : Bool) (ip : List Char) (fp : List Char) (ep : List Char),
    tok = (if neg then ['-'] else []) ++ ip ++ fp ++ ep ∧
    IntPartOk ip ∧ FracOk fp ∧ ExpOk ep ∧ (fp ≠ [] ∨ ep ≠ [])

/-- Well-formed values: exactly the shapes `loadsL` can return, as far as
re-serialization needs them (valid code points in strings and keys,
well-shaped float tokens). -/
inductive WFv : JVal → Prop where
  | null : WFv JVal.null
  | bool (b : Bool) : WFv (JVal.bool b)
  | int (n : Int) : WFv (JVal.int n)
  | float (tok : List Char) (h : FloatTokOk tok) : WFv (JVal.float tok)
  | str (s : List Nat) (h : ∀ cp ∈ s, cp < 1114112) : WFv (JVal.str s)
  | arr (l : List JVal) (h : ∀ v ∈ l, WFv v) : WFv (JVal.arr l)
  | obj (m : List (List Nat × JVal))
      (hk : ∀ kv ∈ m, ∀ cp ∈ kv.1, cp < 1114112)
      (hv : ∀ kv ∈ m, WFv kv.2) : WFv (JVal.obj m)

/-- Digit characters have code points between 48 and 57. -/
theorem isDigit_toNat {c : Char} (h : isDigit c = true) :
    48 ≤ c.toNat ∧ c.toNat ≤ 57 := by
  simp only [isDigit, Bool.and_eq_true, decide_eq_true_eq] at h
  exact h

/-- A digit differs from any character with a code point outside 48..57. -/
theorem digit_ne {c : Char} (h : isDigit c = true) (d : Char)
    (hd : d.toNat < 48 ∨ 57 < d.toNat) : c ≠ d := by
  obtain ⟨h1, h2⟩ := isDigit_toNat h
  exact char_ne_of_toNat_ne (by omega)

/-- Digits are not JSON whitespace. -/
theorem digit_not_jsonWs {c : Char} (h : isDigit c = true) : jsonWs c = false := by
  have h1 := digit_ne h ' ' (by decide)
  have h2 := digit_ne h '\t' (by decide)
  have h3 := digit_ne h '\n' (by decide)
  have h4 := digit_ne h '\r' (by decide)
  simp [jsonWs, h1, h2, h3, h4]

/-! ## Serialization decomposition used by the parse induction -/

/-- What remains of a serialized array after one element: separator plus
next element repeatedly, then the closing bracket. -/
def dumpsArrRest : List JVal → List Char
  | [] => [']']
  | w :: t => ',' :: ' ' :: (dumpsV w ++ dumpsArrRest t)

/-- Serialized form of a single object member. -/
def memberChars (kv : List Nat × JVal) : List Char :=
  '"' :: (escStr kv.1 ++ '"' :: ':' :: ' ' :: dumpsV kv.2)

/-- What remains of a serialized object after one member. -/
def dumpsObjRest : List (List Nat × JVal) → List Char
  | [] => ['}']
  | kv :: t => ',' :: ' ' :: (memberChars kv ++ dumpsObjRest t)

/-- Array serialization splits into first element and the remainder. -/
theorem dumpsArr_decomp : ∀ t v, dumpsArr (v :: t) = dumpsV v ++ dumpsArrRest t := by
  intro t
  induction t with
  | nil => intro v; rfl
  | cons w t2 ih =>
    intro v
    calc dumpsArr (v :: w :: t2) = dumpsV v ++ ',' :: ' ' :: dumpsArr (w :: t2) := rfl
    _ = dumpsV v ++ ',' :: ' ' :: (dumpsV w ++ dumpsArrRest t2) := by rw [ih w]
    _ = dumpsV v ++ dumpsArrRest (w :: t2) := by simp [dumpsArrRest]

/-- Object serialization splits into first member and the remainder. -/
theorem dumpsObj_decomp : ∀ t kv, dumpsObj (kv :: t) = memberChars kv ++ dumpsObjRest t := by
  intro t
  induction t with
  | nil =>
    intro kv
    obtain ⟨k, v⟩ := kv
    show dumpsObj [(k, v)] = memberChars (k, v) ++ dumpsObjRest []
    simp [dumpsObj, memberChars, dumpsObjRest]
  | cons m2 t2 ih =>
    intro kv
    obtain ⟨k, v⟩ := kv
    calc dumpsObj ((k, v) :: m2 :: t2)
        = '"' :: (escStr k ++ '"' :: ':' :: ' ' :: (dumpsV v ++ ',' :: ' ' :: dumpsObj (m2 :: t2))) := rfl
    _ = '"' :: (escStr k ++ '"' :: ':' :: ' ' :: (dumpsV v ++ ',' :: ' ' :: (memberChars m2 ++ dumpsObjRest t2))) := by
        rw [ih m2]
    _ = memberChars (k, v) ++ dumpsObjRest (m2 :: t2) := by
        simp [memberChars, dumpsObjRest]

/-- Packaged head facts for a digit character. -/
theorem digit_head_facts {c : Char} (h : isDigit c = true) :
    jsonWs c = false ∧ c ≠ ']' ∧ c ≠ '}' ∧ c ≠ ',' :=
  ⟨digit_not_jsonWs h, digit_ne h ']' (by decide), digit_ne h '}' (by decide),
    digit_ne h ',' (by decide)⟩

/-- The serialization of a well-formed value begins with a character that
is not whitespace and not an array or object closer or separator. -/
theorem dumpsV_head {v : JVal} (h : WFv v) :
    ∃ c t, dumpsV v = c :: t ∧ jsonWs c = false ∧ c ≠ ']' ∧ c ≠ '}' ∧ c ≠ ',' := by
  cases h with
  | null => exact ⟨'n', _, rfl, by decide, by decide, by decide, by decide⟩
  | bool b =>
    cases b with
    | true => exact ⟨'t', _, rfl, by decide, by decide, by decide, by decide⟩
    | false => exact ⟨'f', _, rfl, by decide, by decide, by decide, by decide⟩
  | int n =>
    by_cases hn : n < 0
    · exact ⟨'-', natToDigits n.natAbs, by simp [dumpsV, intToChars, hn],
        by decide, by decide, by decide, by decide⟩
    · obtain ⟨hne, hdig, _⟩ := natToDigits_spec n.natAbs
      rcases he : natToDigits n.natAbs with _ | ⟨d, t⟩
      · exact absurd he hne
      · have hd : isDigit d = true := hdig d (by rw [he]; simp)
        obtain ⟨hw, h1, h2, h3⟩ := digit_head_facts hd
        exact ⟨d, t, by simp [dumpsV, intToChars, hn, he], hw, h1, h2, h3⟩
  | float tok htok =>
    rcases htok with rfl | rfl | rfl | ⟨neg, ip, fp, ep, rfl, hip, _, _, _⟩
    · exact ⟨'N', _, rfl, by decide, by decide, by decide, by decide⟩
    · exact ⟨'I', _, rfl, by decide, by decide, by decide, by decide⟩
    · exact ⟨'-', _, rfl, by decide, by decide, by decide, by decide⟩
    · cases neg with
      | true =>
        exact ⟨'-', ip ++ fp ++ ep, by simp [dumpsV], by decide, by decide,
          by decide, by decide⟩
      | false =>
        rcases hip with rfl | ⟨d, ds, rfl, hd, _, _⟩
        · exact ⟨'0', fp ++ ep, by simp [dumpsV], by decide, by decide,
            by decide, by decide⟩
        · obtain ⟨hw, h1, h2, h3⟩ := digit_head_facts hd
          exact ⟨d, ds ++ fp ++ ep, by simp [dumpsV], hw, h1, h2, h3⟩
  | str s _ => exact ⟨'"', _, rfl, by decide, by decide, by decide, by decide⟩
  | arr l _ => exact ⟨'[', _, rfl, by decide, by decide, by decide, by decide⟩
  | obj m _ _ => exact ⟨'{', _, rfl, by decide, by decide, by decide, by decide⟩

/-! ## Dispatch lemmas for the parser -/

/-- At a digit head, value dispatch reaches the number scanner. -/
theorem parseP_value_digit (fuel : Nat) {c : Char} (r : List Char)
    (h : isDigit c = true) :
    parseP (fuel + 1) PMode.value (c :: r) = scanNumber (c :: r) := by
  have d1 := digit_ne h '"' (by decide)
  have d2 := digit_ne h '{' (by decide)
  have d3 := digit_ne h '[' (by decide)
  have d4 := digit_ne h 'n' (by decide)
  have d5 := digit_ne h 't' (by decide)
  have d6 := digit_ne h 'f' (by decide)
  have d7 := digit_ne h 'N' (by decide)
  have d8 := digit_ne h 'I' (by decide)
  have d9 := digit_ne h '-' (by decide)
  simp [parseP, nullTok, trueTok, falseTok, nanTok, infTok, ninfTok,
    List.isPrefixOf, d1, d2, d3, d4, d5, d6, d7, d8, d9,
    Ne.symm d1, Ne.symm d2, Ne.symm d3, Ne.symm d4, Ne.symm d5, Ne.symm d6,
    Ne.symm d7, Ne.symm d8, Ne.symm d9]

/-- At a minus head whose successor is a digit, value dispatch reaches the
number scanner. -/
theorem parseP_value_minus (fuel : Nat) {c : Char} (r : List Char)
    (h : isDigit c = true) :
    parseP (fuel + 1) PMode.value ('-' :: c :: r) = scanNumber ('-' :: c :: r) := by
  have d8 := digit_ne h 'I' (by decide)
  simp +decide [parseP, nullTok, trueTok, falseTok, nanTok, infTok, ninfTok,
    List.isPrefixOf, Ne.symm d8]

/-! ## Number scanning lemmas -/

/-- The fraction scanner consumes nothing unless the head is a dot. -/
theorem scanFrac_not_dot (rest : List Char)
    (h : ∀ c, rest.head? = some c → c ≠ '.') : scanFrac rest = ([], rest) := by
  cases rest with
  | nil => rfl
  | cons c r => simp [scanFrac, h c rfl]

/-- The exponent scanner consumes nothing unless the head is an e. -/
theorem scanExp_not_e (rest : List Char)
    (h : ∀ c, rest.head? = some c → c ≠ 'e' ∧ c ≠ 'E') : scanExp rest = ([], rest) := by
  cases rest with
  | nil => rfl
  | cons c r =>
    obtain ⟨h1, h2⟩ := h c rfl
    simp [scanExp, h1, h2]

/-- The integer part scanner consumes a well-shaped integer part exactly. -/
theorem scanIntPart_exact {ip : List Char} (hip : IntPartOk ip) (X : List Char)
    (hX : ∀ c, X.head? = some c → isDigit c = false) :
    scanIntPart (ip ++ X) = some (ip, X) := by
  rcases hip with rfl | ⟨d, ds, rfl, hd, hd0, hds⟩
  · simp [scanIntPart]
  · have hne : d ≠ '0' := hd0
    simp only [List.cons_append, scanIntPart, if_neg hne, hd, if_pos]
    rw [takeWhile_app ds X hds hX, dropWhile_app ds X hds hX]

/-- Heads of well-shaped fraction-exponent-rest continuations are not
digits. -/
theorem fracExpRest_head_not_digit {fp ep rest : List Char}
    (hfp : FracOk fp) (hep : ExpOk ep) (hrest : SepOk rest) :
    ∀ c, (fp ++ (ep ++ rest)).head? = some c → isDigit c = false := by
  intro c hc
  rcases hfp with rfl | ⟨ds, rfl, _⟩
  · rcases hep with rfl | ⟨e, sg, ds, rfl, he, _, _⟩
    · simp only [List.nil_append] at hc
      exact (sepOk_head hrest c hc).1
    · simp at hc
      subst hc
      rcases he with rfl | rfl <;> decide
  · simp at hc
    subst hc
    decide

/-- The exponent scanner consumes a well-shaped nonempty exponent exactly. -/
theorem scanExp_exact {e : Char} {sg ds : List Char} (rest : List Char)
    (he : e = 'e' ∨ e = 'E') (hsg : sg = [] ∨ sg = ['+'] ∨ sg = ['-'])
    (hds : goodDigits ds) (hrest : SepOk rest) :
    scanExp ((e :: (sg ++ ds)) ++ rest) = (e :: (sg ++ ds), rest) := by
  obtain ⟨hne, hdig⟩ := hds
  have hcond : (e = 'e' || e = 'E') = true := by
    rcases he with rfl | rfl <;> simp
  have htake := takeWhile_app ds rest hdig
    (fun c hc => (sepOk_head hrest c hc).1)
  have hdrop := dropWhile_app ds rest hdig
    (fun c hc => (sepOk_head hrest c hc).1)
  rcases hsg with rfl | rfl | rfl
  · rcases hd : ds with _ | ⟨d0, ds2⟩
    · exact absurd hd hne
    · subst hd
      have hd0 : isDigit d0 = true := hdig d0 (by simp)
      have hp : d0 ≠ '+' := digit_ne hd0 '+' (by decide)
      have hm : d0 ≠ '-' := digit_ne hd0 '-' (by decide)
      simp only [List.nil_append, List.cons_append, scanExp, hcond, if_pos]
      simp only [List.cons_append] at htake hdrop
      simp [hp, hm, htake, hdrop, hne]
  · simp only [List.cons_append, List.append_assoc, List.singleton_append, scanExp, hcond, if_pos]
    simp +decide [htake, hdrop, hne]
  · simp only [List.cons_append, List.append_assoc, List.singleton_append, scanExp, hcond, if_pos]
    simp +decide [htake, hdrop, hne]

/-- The unsigned number scanner consumes a well-shaped number exactly. -/
theorem scanNumCore_exact (neg : Bool) {ip fp ep : List Char} (rest : List Char)
    (hip : IntPartOk ip) (hfp : FracOk fp) (hep : ExpOk ep) (hrest : SepOk rest) :
    ∃ w, scanNumCore neg (ip ++ (fp ++ (ep ++ rest))) = some (w, rest) := by
  have hint := scanIntPart_exact hip (fp ++ (ep ++ rest))
    (fracExpRest_head_not_digit hfp hep hrest)
  have hexp : scanExp (ep ++ rest) = (ep, rest) := by
    rcases hep with rfl | ⟨e, sg, ds, rfl, he, hsg, hds⟩
    · simpa using scanExp_not_e rest
        (fun c hc => by
          obtain ⟨_, _, h1, h2⟩ := sepOk_head hrest c hc
          exact ⟨h1, h2⟩)
    · exact scanExp_exact rest he hsg hds hrest
  rcases hfp with rfl | ⟨ds, rfl, hds⟩
  · simp only [List.nil_append] at hint
    have hfr : scanFrac (ep ++ rest) = ([], ep ++ rest) := by
      apply scanFrac_not_dot
      intro c hc
      rcases hep with rfl | ⟨e, sg, ds, rfl, he, _, _⟩
      · simp only [List.nil_append] at hc
        exact (sepOk_head hrest c hc).2.1
      · simp at hc
        subst hc
        rcases he with rfl | rfl <;> decide
    simp only [List.nil_append, scanNumCore]
    rw [hint]
    dsimp only
    rw [hfr]
    dsimp only
    rw [hexp]
    rcases hep with rfl | ⟨e, sg, ds2, rfl, _, _, _⟩
    · rw [if_pos (by simp)]
      exact ⟨_, rfl⟩
    · rw [if_neg (by simp)]
      exact ⟨_, rfl⟩
  · have hdig := hds.2
    have hne := hds.1
    have hndig : ∀ c, (ep ++ rest).head? = some c → isDigit c = false := by
      intro c hc
      rcases hep with rfl | ⟨e, sg, ds2, rfl, he, _, _⟩
      · simp only [List.nil_append] at hc
        exact (sepOk_head hrest c hc).1
      · simp at hc
        subst hc
        rcases he with rfl | rfl <;> decide
    have htake := takeWhile_app ds (ep ++ rest) hdig hndig
    have hdrop := dropWhile_app ds (ep ++ rest) hdig hndig
    have hfr : scanFrac ('.' :: (ds ++ (ep ++ rest))) = ('.' :: ds, ep ++ rest) := by
      simp only [scanFrac, if_pos]
      simp [htake, hdrop, hne]
    simp only [List.cons_append, List.append_assoc] at hint ⊢
    simp only [scanNumCore]
    rw [hint]
    dsimp only
    rw [hfr]
    dsimp only
    rw [hexp]
    rw [if_neg (by simp)]
    exact ⟨_, rfl⟩

/-- The base-ten printer output is a well-shaped integer part. -/
theorem natToDigits_IntPartOk (m : Nat) : IntPartOk (natToDigits m) := by
  rcases Nat.eq_zero_or_pos m with rfl | hm
  · exact Or.inl rfl
  · obtain ⟨hne, hdig, hzero⟩ := natToDigits_spec m
    rcases he : natToDigits m with _ | ⟨d, t⟩
    · exact absurd he hne
    · refine Or.inr ⟨d, t, rfl, hdig d (by rw [he]; simp), ?_, ?_⟩
      · intro hd0
        subst hd0
        exact hzero hm (by rw [he]; rfl)
      · intro c hc
        exact hdig c (by rw [he]; simp [hc])

/-- A serialized integer rescans as one number token exactly. -/
theorem scanNumber_intToChars (n : Int) (rest : List Char) (h : SepOk rest) :
    ∃ w, scanNumber (intToChars n ++ rest) = some (w, rest) := by
  by_cases hn : n < 0
  · have hip := natToDigits_IntPartOk n.natAbs
    have hcore := scanNumCore_exact true rest hip (Or.inl rfl) (Or.inl rfl) h
    simp only [List.nil_append] at hcore
    simp only [intToChars, hn, if_pos, List.cons_append, scanNumber, if_pos]
    simpa using hcore
  · have hip := natToDigits_IntPartOk n.natAbs
    have hcore := scanNumCore_exact false rest hip (Or.inl rfl) (Or.inl rfl) h
    simp only [List.nil_append] at hcore
    obtain ⟨hne, hdig, _⟩ := natToDigits_spec n.natAbs
    rcases he : natToDigits n.natAbs with _ | ⟨d, t⟩
    · exact absurd he hne
    · have hd : isDigit d = true := hdig d (by rw [he]; simp)
      have hdm : d ≠ '-' := digit_ne hd '-' (by decide)
      rw [he] at hcore
      have hi : intToChars n = d :: t := by simp [intToChars, hn, he]
      rw [hi]
      simp only [List.cons_append, scanNumber]
      rw [if_neg hdm]
      simpa using hcore

/-- A well-shaped float token in grammar form rescans as one number token
exactly. -/
theorem scanNumber_floatGrammar (neg : Bool) {ip fp ep : List Char}
    (rest : List Char) (hip : IntPartOk ip) (hfp : FracOk fp) (hep : ExpOk ep)
    (hrest : SepOk rest) :
    ∃ w, scanNumber (((if neg then ['-'] else []) ++ ip ++ fp ++ ep) ++ rest) =
      some (w, rest) := by
  have hcore := scanNumCore_exact neg rest hip hfp hep hrest
  cases neg with
  | true =>
    show ∃ w, scanNumber ((['-'] ++ ip ++ fp ++ ep) ++ rest) = some (w, rest)
    simp only [List.cons_append, List.nil_append, List.append_assoc, scanNumber]
    rw [if_pos trivial]
    simpa [List.append_assoc] using hcore
  | false =>
    show ∃ w, scanNumber (([] ++ ip ++ fp ++ ep) ++ rest) = some (w, rest)
    rcases hip with rfl | ⟨d, ds, rfl, hd, hd0, hds⟩
    · simp only [List.nil_append, List.cons_append, List.append_assoc, scanNumber]
      rw [if_neg (by decide : ¬('0' : Char) = '-')]
      simpa [List.append_assoc] using hcore
    · have hdm : d ≠ '-' := digit_ne hd '-' (by decide)
      simp only [List.nil_append, List.cons_append, List.append_assoc, scanNumber]
      rw [if_neg hdm]
      simpa [List.append_assoc] using hcore

/-! ## Further parser dispatch equations -/

/-- Value dispatch at a string head. -/
theorem parseP_value_quote (fuel : Nat) (r : List Char) :
    parseP (fuel + 1) PMode.value ('"' :: r) =
      (scanString r).map (fun p => (JVal.str p.1, p.2)) := rfl

/-- Value dispatch at an object head. -/
theorem parseP_value_lbrace (fuel : Nat) (r : List Char) :
    parseP (fuel + 1) PMode.value ('{' :: r) =
      (match skipWs r with
       | [] => none
       | c2 :: r2 =>
         if c2 = '}' then some (JVal.obj [], r2)
         else if c2 = '"' then
           match scanString r2 with
           | none => none
           | some (k, r3) =>
             (match skipWs r3 with
              | [] => none
              | c3 :: r4 =>
                if c3 = ':' then
                  match parseP fuel PMode.value (skipWs r4) with
                  | none => none
                  | some (v, r5) => parseP fuel (PMode.objTail (pyInsert [] k v)) r5
                else none)
         else none) := rfl

/-- Value dispatch at an array head. -/
theorem parseP_value_lbrack (fuel : Nat) (r : List Char) :
    parseP (fuel + 1) PMode.value ('[' :: r) =
      (match skipWs r with
       | [] => none
       | c2 :: r2 =>
         if c2 = ']' then some (JVal.arr [], r2)
         else
           match parseP fuel PMode.value (c2 :: r2) with
           | none => none
           | some (v, r3) => parseP fuel (PMode.arrTail [v]) r3) := rfl

/-- Unfolding of the array continuation mode. -/
theorem parseP_arrTail (fuel : Nat) (acc : List JVal) (cs : List Char) :
    parseP (fuel + 1) (PMode.arrTail acc) cs =
      (match skipWs cs with
       | [] => none
       | c :: r =>
         if c = ']' then some (JVal.arr acc, r)
         else if c = ',' then
           match parseP fuel PMode.value (skipWs r) with
           | none => none
           | some (v, r2) => parseP fuel (PMode.arrTail (acc ++ [v])) r2
         else none) := rfl

/-- Unfolding of the object continuation mode. -/
theorem parseP_objTail (fuel : Nat) (acc : List (List Nat × JVal)) (cs : List Char) :
    parseP (fuel + 1) (PMode.objTail acc) cs =
      (match skipWs cs with
       | [] => none
       | c :: r =>
         if c = '}' then some (JVal.obj acc, r)
         else if c = ',' then
           match skipWs r with
           | [] => none
           | c2 :: r2 =>
             if c2 = '"' then
               match scanString r2 with
               | none => none
               | some (k, r3) =>
                 (match skipWs r3 with
                  | [] => none
                  | c3 :: r4 =>
                    if c3 = ':' then
                      match parseP fuel PMode.value (skipWs r4) with
                      | none => none
                      | some (v, r5) => parseP fuel (PMode.objTail (pyInsert acc k v)) r5
                    else none)
             else none
         else none) := rfl

/-- Value dispatch at the null literal. -/
theorem parseP_value_null (fuel : Nat) (rest : List Char) :
    parseP (fuel + 1) PMode.value (nullTok ++ rest) = some (JVal.null, rest) := by
  show parseP (fuel + 1) PMode.value ('n' :: 'u' :: 'l' :: 'l' :: rest) = _
  simp +decide [parseP, nullTok, List.isPrefixOf]

/-- Value dispatch at the true literal. -/
theorem parseP_value_true (fuel : Nat) (rest : List Char) :
    parseP (fuel + 1) PMode.value (trueTok ++ rest) = some (JVal.bool true, rest) := by
  show parseP (fuel + 1) PMode.value ('t' :: 'r' :: 'u' :: 'e' :: rest) = _
  simp +decide [parseP, nullTok, trueTok, List.isPrefixOf]

/-- Value dispatch at the false literal. -/
theorem parseP_value_false (fuel : Nat) (rest : List Char) :
    parseP (fuel + 1) PMode.value (falseTok ++ rest) = some (JVal.bool false, rest) := by
  show parseP (fuel + 1) PMode.value ('f' :: 'a' :: 'l' :: 's' :: 'e' :: rest) = _
  simp +decide [parseP, nullTok, trueTok, falseTok, List.isPrefixOf]

/-- Value dispatch at the NaN literal. -/
theorem parseP_value_nan (fuel : Nat) (rest : List Char) :
    parseP (fuel + 1) PMode.value (nanTok ++ rest) = some (JVal.float nanTok, rest) := by
  show parseP (fuel + 1) PMode.value ('N' :: 'a' :: 'N' :: rest) = _
  simp +decide [parseP, nullTok, trueTok, falseTok, nanTok, List.isPrefixOf]

/-- Value dispatch at the Infinity literal. -/
theorem parseP_value_inf (fuel : Nat) (rest : List Char) :
    parseP (fuel + 1) PMode.value (infTok ++ rest) = some (JVal.float infTok, rest) := by
  show parseP (fuel + 1) PMode.value
    ('I' :: 'n' :: 'f' :: 'i' :: 'n' :: 'i' :: 't' :: 'y' :: rest) = _
  simp +decide [parseP, nullTok, trueTok, falseTok, nanTok, infTok, List.isPrefixOf]

/-- Value dispatch at the -Infinity literal. -/
theorem parseP_value_ninf (fuel : Nat) (rest : List Char) :
    parseP (fuel + 1) PMode.value (ninfTok ++ rest) = some (JVal.float ninfTok, rest) := by
  show parseP (fuel + 1) PMode.value
    ('-' :: 'I' :: 'n' :: 'f' :: 'i' :: 'n' :: 'i' :: 't' :: 'y' :: rest) = _
  simp +decide [parseP, nullTok, trueTok, falseTok, nanTok, infTok, ninfTok,
    List.isPrefixOf]

/-! ## String escape rescanning -/

/-- Unfolding of `escStr` at a cons. -/
theorem escStr_cons (cp : Nat) (s : List Nat) :
    escStr (cp :: s) = escCp cp ++ escStr s := rfl

/-- Scanning a unicode escape that does not decode to a high surrogate. -/
theorem scanStringF_u_notHigh (f : Nat) {cp : Nat} (h1 h2 h3 h4 : Char)
    (r3 : List Char) (hhex : hex4 h1 h2 h3 h4 = some cp)
    (hH : isHighSurr cp = false) :
    scanStringF (f + 1) ('\\' :: 'u' :: h1 :: h2 :: h3 :: h4 :: r3) =
      consCp cp (scanStringF f r3) := by
  simp +decide [scanStringF, hhex, hH]

/-- Scanning a high-surrogate escape whose continuation does not start
with another unicode escape: the code point is kept lone. -/
theorem scanStringF_high_lone (f : Nat) {cp : Nat} (h1 h2 h3 h4 : Char)
    (r3 : List Char) (hhex : hex4 h1 h2 h3 h4 = some cp)
    (hH : isHighSurr cp = true)
    (hr3 : ∀ b1 b2 rest4, r3 = b1 :: b2 :: rest4 → ¬(b1 = '\\' ∧ b2 = 'u')) :
    scanStringF (f + 1) ('\\' :: 'u' :: h1 :: h2 :: h3 :: h4 :: r3) =
      consCp cp (scanStringF f r3) := by
  rcases r3 with _ | ⟨b1, r3t⟩
  · simp +decide [scanStringF, hhex, hH]
  rcases r3t with _ | ⟨b2, rest4⟩
  · simp +decide [scanStringF, hhex, hH]
  · have hb := hr3 b1 b2 rest4 rfl
    have hcond : (b1 = '\\' && b2 = 'u') = false := by
      by_cases hb1 : b1 = '\\'
      · by_cases hb2 : b2 = 'u'
        · exact absurd ⟨hb1, hb2⟩ hb
        · simp [hb2]
      · simp [hb1]
    simp +decide [scanStringF, hhex, hH, hcond]

/-- Scanning a high-surrogate escape followed by a unicode escape that is
not a low surrogate: the code point is kept lone and rescanning restarts
at the second escape. -/
theorem scanStringF_high_uNotLow (f : Nat) {cp cp2 : Nat}
    (h1 h2 h3 h4 g1 g2 g3 g4 : Char) (r5 : List Char)
    (hhex : hex4 h1 h2 h3 h4 = some cp) (hH : isHighSurr cp = true)
    (hhex2 : hex4 g1 g2 g3 g4 = some cp2) (hL : isLowSurr cp2 = false) :
    scanStringF (f + 1)
      ('\\' :: 'u' :: h1 :: h2 :: h3 :: h4 :: '\\' :: 'u' :: g1 :: g2 :: g3 :: g4 :: r5) =
      consCp cp (scanStringF f ('\\' :: 'u' :: g1 :: g2 :: g3 :: g4 :: r5)) := by
  simp +decide [scanStringF, hhex, hH, hhex2, hL]

/-- Scanning a surrogate pair of escapes: the pair is combined and
rescanning continues after both. -/
theorem scanStringF_high_pair (f : Nat) {cp cp2 : Nat}
    (h1 h2 h3 h4 g1 g2 g3 g4 : Char) (r5 : List Char)
    (hhex : hex4 h1 h2 h3 h4 = some cp) (hH : isHighSurr cp = true)
    (hhex2 : hex4 g1 g2 g3 g4 = some cp2) (hL : isLowSurr cp2 = true) :
    scanStringF (f + 1)
      ('\\' :: 'u' :: h1 :: h2 :: h3 :: h4 :: '\\' :: 'u' :: g1 :: g2 :: g3 :: g4 :: r5) =
      consCp (65536 + (cp - 55296) * 1024 + (cp2 - 56320)) (scanStringF f r5) := by
  simp +decide [scanStringF, hhex, hH, hhex2, hL]

/-- Scanning a simple escape. -/
theorem scanStringF_simpleEsc (f : Nat) {e : Char} {cp : Nat} (r2 : List Char)
    (he : escSimple e = some cp) (hu : e ≠ 'u') :
    scanStringF (f + 1) ('\\' :: e :: r2) = consCp cp (scanStringF f r2) := by
  simp +decide [scanStringF, he, hu]

/-- Scanning a plain character at or above 0x20. -/
theorem scanStringF_plain (f : Nat) {c : Char} (r : List Char)
    (hq : c ≠ '"') (hb : c ≠ '\\') (hc : ¬c.toNat < 32) :
    scanStringF (f + 1) (c :: r) = consCp c.toNat (scanStringF f r) := by
  simp [scanStringF, hq, hb, hc]

/-- Classification of the escape of one code point. -/
theorem escCp_classify (cp : Nat) (h : cp < 1114112) :
    (∃ e cpv, escCp cp = ['\\', e] ∧ escSimple e = some cpv ∧ e ≠ 'u') ∨
    (∃ ch, escCp cp = [ch] ∧ ch ≠ '\\' ∧ ch ≠ '"' ∧ ¬ch.toNat < 32) ∨
    (escCp cp = '\\' :: 'u' :: toHex4 cp ∧ cp < 65536) ∨
    (escCp cp = '\\' :: 'u' :: toHex4 (55296 + (cp - 65536) / 1024) ++
       '\\' :: 'u' :: toHex4 (56320 + (cp - 65536) % 1024) ∧ 65536 ≤ cp) := by
  by_cases h34 : cp = 34
  · subst h34; exact Or.inl ⟨'"', 34, rfl, rfl, by decide⟩
  by_cases h92 : cp = 92
  · subst h92; exact Or.inl ⟨'\\', 92, rfl, rfl, by decide⟩
  by_cases h8 : cp = 8
  · subst h8; exact Or.inl ⟨'b', 8, rfl, rfl, by decide⟩
  by_cases h9 : cp = 9
  · subst h9; exact Or.inl ⟨'t', 9, rfl, rfl, by decide⟩
  by_cases h10 : cp = 10
  · subst h10; exact Or.inl ⟨'n', 10, rfl, rfl, by decide⟩
  by_cases h12 : cp = 12
  · subst h12; exact Or.inl ⟨'f', 12, rfl, rfl, by decide⟩
  by_cases h13 : cp = 13
  · subst h13; exact Or.inl ⟨'r', 13, rfl, rfl, by decide⟩
  by_cases hpr : 32 ≤ cp ∧ cp < 127
  · have hpb : escCp cp = [Char.ofNat cp] := by
      simp [escCp, h34, h92, h8, h9, h10, h12, h13, hpr.1, hpr.2]
    have htn : (Char.ofNat cp).toNat = cp := toNat_ofNat_of_lt (by omega)
    refine Or.inr (Or.inl ⟨Char.ofNat cp, hpb, ?_, ?_, ?_⟩)
    · exact char_ne_of_toNat_ne (by rw [htn]; simpa using h92)
    · exact char_ne_of_toNat_ne (by rw [htn]; simpa using h34)
    · rw [htn]; omega
  by_cases hlo : cp < 65536
  · have hpb : (decide (32 ≤ cp) && decide (cp < 127)) = false := by
      rcases not_and_or.mp hpr with hh | hh <;> simp [hh]
    refine Or.inr (Or.inr (Or.inl ⟨?_, hlo⟩))
    simp [escCp, h34, h92, h8, h9, h10, h12, h13, hpb, hlo]
  · refine Or.inr (Or.inr (Or.inr ⟨?_, by omega⟩))
    have hpb : (decide (32 ≤ cp) && decide (cp < 127)) = false := by
      rcases not_and_or.mp hpr with hh | hh <;> simp [hh]
    simp [escCp, h34, h92, h8, h9, h10, h12, h13, hpb, hlo]

/-- Surrogate halves of an astral code point are in range. -/
theorem surrHalves {cp : Nat} (h1 : 65536 ≤ cp) (h2 : cp < 1114112) :
    (55296 + (cp - 65536) / 1024 < 65536 ∧
     isHighSurr (55296 + (cp - 65536) / 1024) = true) ∧
    (56320 + (cp - 65536) % 1024 < 65536 ∧
     isLowSurr (56320 + (cp - 65536) % 1024) = true) := by
  have hd : (cp - 65536) / 1024 < 1024 := by omega
  have hm : (cp - 65536) % 1024 < 1024 := Nat.mod_lt _ (by norm_num)
  refine ⟨⟨by omega, ?_⟩, ⟨by omega, ?_⟩⟩
  · simp [isHighSurr]; omega
  · simp [isLowSurr]; omega

/-- A continuation whose head is not a backslash does not start a unicode
escape. -/
theorem no_uEsc_of_head (r3 : List Char) (h0 : Char) (t0 : List Char)
    (hr : r3 = h0 :: t0) (hne : h0 ≠ '\\') :
    ∀ b1 b2 rest4, r3 = b1 :: b2 :: rest4 → ¬(b1 = '\\' ∧ b2 = 'u') := by
  intro b1 b2 rest4 heq hc
  rw [hr] at heq
  have hb1 : h0 = b1 := (List.cons.injEq ..).mp heq |>.1
  exact hne (hb1 ▸ hc.1)

/-- A continuation whose second character is not the letter u does not
start a unicode escape. -/
theorem no_uEsc_of_second (r3 : List Char) (x y : Char) (t : List Char)
    (hr : r3 = x :: y :: t) (hy : y ≠ 'u') :
    ∀ b1 b2 rest4, r3 = b1 :: b2 :: rest4 → ¬(b1 = '\\' ∧ b2 = 'u') := by
  intro b1 b2 rest4 heq hc
  rw [hr] at heq
  have hb2 : y = b2 := ((List.cons.injEq ..).mp heq).2 |> fun h => ((List.cons.injEq ..).mp h).1
  exact hy (hb2 ▸ hc.2)

/-- Rescanning an escaped string body succeeds and consumes exactly the
body and its closing quote. -/
theorem scanStringF_escStr :
    ∀ (n : Nat) (s : List Nat) (fuel : Nat) (rest : List Char),
      s.length ≤ n → (∀ cp ∈ s, cp < 1114112) →
      (escStr s ++ '"' :: rest).length < fuel →
      ∃ s2, scanStringF fuel (escStr s ++ '"' :: rest) = some (s2, rest) := by
  intro n
  induction n with
  | zero =>
    intro s fuel rest hlen _ hfuel
    have hs : s = [] := List.length_eq_zero.mp (Nat.le_zero.mp hlen)
    subst hs
    cases fuel with
    | zero => exact absurd hfuel (by simp)
    | succ f => exact ⟨[], by simp +decide [escStr, scanStringF]⟩
  | succ n ih =>
    intro s fuel rest hlen hval hfuel
    rcases s with _ | ⟨cp, tl⟩
    · cases fuel with
      | zero => exact absurd hfuel (by simp)
      | succ f => exact ⟨[], by simp +decide [escStr, scanStringF]⟩
    cases fuel with
    | zero => exact absurd hfuel (by simp)
    | succ f =>
      have hcp := hval cp (by simp)
      have hvtl : ∀ c ∈ tl, c < 1114112 := fun c hc => hval c (by simp [hc])
      have hltl : tl.length ≤ n := by simpa using hlen
      rw [escStr_cons, List.append_assoc] at hfuel ⊢
      rcases escCp_classify cp hcp with ⟨e, cpv, he, hesc, hu⟩ |
        ⟨ch, he, hch1, hch2, hch3⟩ | ⟨he, hlt⟩ | ⟨he, hge⟩
      · rw [he] at hfuel ⊢
        have hf2 : (escStr tl ++ '"' :: rest).length < f := by
          simp [List.length_append] at hfuel ⊢; omega
        obtain ⟨s2, hs2⟩ := ih tl f rest hltl hvtl hf2
        refine ⟨cpv :: s2, ?_⟩
        rw [show (['\\', e] : List Char) ++ (escStr tl ++ '"' :: rest) =
          '\\' :: e :: (escStr tl ++ '"' :: rest) from rfl]
        rw [scanStringF_simpleEsc f _ hesc hu, hs2]
        rfl
      · rw [he] at hfuel ⊢
        have hf2 : (escStr tl ++ '"' :: rest).length < f := by
          simp [List.length_append] at hfuel ⊢; omega
        obtain ⟨s2, hs2⟩ := ih tl f rest hltl hvtl hf2
        refine ⟨ch.toNat :: s2, ?_⟩
        rw [show ([ch] : List Char) ++ (escStr tl ++ '"' :: rest) =
          ch :: (escStr tl ++ '"' :: rest) from rfl]
        rw [scanStringF_plain f _ hch2 hch1 hch3, hs2]
        rfl
      · -- a four-digit escape of this code point
        have hhex := hex4_toHex4 hlt
        have hf2 : (escStr tl ++ '"' :: rest).length < f := by
          rw [he] at hfuel
          simp [List.length_append, toHex4] at hfuel ⊢; omega
        rw [he]
        rw [show (('\\' :: 'u' :: toHex4 cp) ++ (escStr tl ++ '"' :: rest)) =
          '\\' :: 'u' :: hexDigitChar (cp / 4096 % 16) :: hexDigitChar (cp / 256 % 16) ::
            hexDigitChar (cp / 16 % 16) :: hexDigitChar (cp % 16) ::
            (escStr tl ++ '"' :: rest) from by simp [toHex4]]
        by_cases hH : isHighSurr cp = true
        · -- lone high surrogate: inspect the continuation
          rcases htl : tl with _ | ⟨cp2, tl2⟩
          · subst htl
            obtain ⟨s2, hs2⟩ := ih [] f rest (by simp) (by simp) (by
              simpa using hf2)
            refine ⟨cp :: s2, ?_⟩
            rw [scanStringF_high_lone f _ _ _ _ _ hhex hH
              (no_uEsc_of_head _ '"' rest (by simp [escStr]) (by decide))]
            rw [hs2]
            rfl
          · subst htl
            have hcp2 := hvtl cp2 (by simp)
            have hvtl2 : ∀ c ∈ tl2, c < 1114112 := fun c hc => hvtl c (by simp [hc])
            have hltl2 : tl2.length ≤ n := by
              have := hltl; simp at this; omega
            rcases escCp_classify cp2 hcp2 with ⟨e2, cpv2, he2, hesc2, hu2⟩ |
              ⟨ch2, he2, hc21, _, _⟩ | ⟨he2, hlt2⟩ | ⟨he2, hge2⟩
            · -- next escape is simple: lone surrogate kept
              have hshape : escStr (cp2 :: tl2) ++ '"' :: rest =
                  '\\' :: e2 :: (escStr tl2 ++ '"' :: rest) := by
                rw [escStr_cons, he2]; simp
              obtain ⟨s2, hs2⟩ := ih (cp2 :: tl2) f rest hltl hvtl hf2
              refine ⟨cp :: s2, ?_⟩
              rw [scanStringF_high_lone f _ _ _ _ _ hhex hH
                (no_uEsc_of_second _ '\\' e2 _ hshape hu2)]
              rw [hs2]
              rfl
            · -- next character is plain: lone surrogate kept
              have hshape : escStr (cp2 :: tl2) ++ '"' :: rest =
                  ch2 :: (escStr tl2 ++ '"' :: rest) := by
                rw [escStr_cons, he2]; simp
              obtain ⟨s2, hs2⟩ := ih (cp2 :: tl2) f rest hltl hvtl hf2
              refine ⟨cp :: s2, ?_⟩
              rw [scanStringF_high_lone f _ _ _ _ _ hhex hH
                (no_uEsc_of_head _ ch2 _ hshape hc21)]
              rw [hs2]
              rfl
            · -- next escape is a four-digit escape
              have hhex2 := hex4_toHex4 hlt2
              have hshape : escStr (cp2 :: tl2) ++ '"' :: rest =
                  '\\' :: 'u' :: hexDigitChar (cp2 / 4096 % 16) ::
                    hexDigitChar (cp2 / 256 % 16) :: hexDigitChar (cp2 / 16 % 16) ::
                    hexDigitChar (cp2 % 16) :: (escStr tl2 ++ '"' :: rest) := by
                rw [escStr_cons, he2]; simp [toHex4]
              by_cases hL2 : isLowSurr cp2 = true
              · -- surrogate pair combined
                have hf3 : (escStr tl2 ++ '"' :: rest).length < f := by
                  rw [hshape] at hf2
                  simp [List.length_append] at hf2 ⊢; omega
                obtain ⟨s2, hs2⟩ := ih tl2 f rest hltl2 hvtl2 hf3
                refine ⟨(65536 + (cp - 55296) * 1024 + (cp2 - 56320)) :: s2, ?_⟩
                rw [hshape]
                rw [scanStringF_high_pair f _ _ _ _ _ _ _ _ _ hhex hH hhex2 hL2]
                rw [hs2]
                rfl
              · -- a second escape that is not a low surrogate: kept lone
                obtain ⟨s2, hs2⟩ := ih (cp2 :: tl2) f rest hltl hvtl hf2
                refine ⟨cp :: s2, ?_⟩
                rw [hshape]
                rw [scanStringF_high_uNotLow f _ _ _ _ _ _ _ _ _ hhex hH hhex2
                  (by simpa using hL2)]
                rw [← hshape, hs2]
                rfl
            · -- next escape opens a surrogate pair emitted for an astral
              -- code point: its first half is high, not low, so kept lone
              obtain ⟨⟨hlt2, _⟩, _⟩ := surrHalves hge2 hcp2
              have hhex2 := hex4_toHex4 hlt2
              have hshape : escStr (cp2 :: tl2) ++ '"' :: rest =
                  '\\' :: 'u' ::
                    hexDigitChar ((55296 + (cp2 - 65536) / 1024) / 4096 % 16) ::
                    hexDigitChar ((55296 + (cp2 - 65536) / 1024) / 256 % 16) ::
                    hexDigitChar ((55296 + (cp2 - 65536) / 1024) / 16 % 16) ::
                    hexDigitChar ((55296 + (cp2 - 65536) / 1024) % 16) ::
                    ('\\' :: 'u' :: toHex4 (56320 + (cp2 - 65536) % 1024) ++
                      (escStr tl2 ++ '"' :: rest)) := by
                rw [escStr_cons, he2]
                simp [toHex4]
              have hnotlow : isLowSurr (55296 + (cp2 - 65536) / 1024) = false := by
                have : (cp2 - 65536) / 1024 < 1024 := by omega
                simp [isLowSurr]
                omega
              obtain ⟨s2, hs2⟩ := ih (cp2 :: tl2) f rest hltl hvtl hf2
              refine ⟨cp :: s2, ?_⟩
              rw [hshape]
              rw [scanStringF_high_uNotLow f _ _ _ _ _ _ _ _ _ hhex hH hhex2 hnotlow]
              rw [← hshape, hs2]
              rfl
        · obtain ⟨s2, hs2⟩ := ih tl f rest hltl hvtl hf2
          refine ⟨cp :: s2, ?_⟩
          rw [scanStringF_u_notHigh f _ _ _ _ _ hhex (by simpa using hH), hs2]
          rfl
      · -- astral code point: emitted as a surrogate pair, recombined
        obtain ⟨⟨hhlt, hhigh⟩, ⟨hllt, hlow⟩⟩ := surrHalves hge hcp
        have hhexH := hex4_toHex4 hhlt
        have hhexL := hex4_toHex4 hllt
        have hshape : escCp cp ++ (escStr tl ++ '"' :: rest) =
            '\\' :: 'u' ::
              hexDigitChar ((55296 + (cp - 65536) / 1024) / 4096 % 16) ::
              hexDigitChar ((55296 + (cp - 65536) / 1024) / 256 % 16) ::
              hexDigitChar ((55296 + (cp - 65536) / 1024) / 16 % 16) ::
              hexDigitChar ((55296 + (cp - 65536) / 1024) % 16) ::
              '\\' :: 'u' ::
              hexDigitChar ((56320 + (cp - 65536) % 1024) / 4096 % 16) ::
              hexDigitChar ((56320 + (cp - 65536) % 1024) / 256 % 16) ::
              hexDigitChar ((56320 + (cp - 65536) % 1024) / 16 % 16) ::
              hexDigitChar ((56320 + (cp - 65536) % 1024) % 16) ::
              (escStr tl ++ '"' :: rest) := by
          rw [he]
          simp [toHex4]
        have hf2 : (escStr tl ++ '"' :: rest).length < f := by
          rw [hshape] at hfuel
          simp [List.length_append] at hfuel ⊢; omega
        obtain ⟨s2, hs2⟩ := ih tl f rest hltl hvtl hf2
        refine ⟨(65536 + (55296 + (cp - 65536) / 1024 - 55296) * 1024 +
          (56320 + (cp - 65536) % 1024 - 56320)) :: s2, ?_⟩
        rw [hshape]
        rw [scanStringF_high_pair f _ _ _ _ _ _ _ _ _ hhexH hhigh hhexL hlow]
        rw [hs2]
        rfl

/-- The remainder of a serialized array is an allowed continuation. -/
theorem sepOk_dumpsArrRest (t : List JVal) (rest : List Char) :
    SepOk (dumpsArrRest t ++ rest) := by
  cases t with
  | nil => exact sepOk_rbrack rest
  | cons w t2 => exact sepOk_comma _

/-- The remainder of a serialized object is an allowed continuation. -/
theorem sepOk_dumpsObjRest (t : List (List Nat × JVal)) (rest : List Char) :
    SepOk (dumpsObjRest t ++ rest) := by
  cases t with
  | nil => exact sepOk_rbrace rest
  | cons kv t2 => exact sepOk_comma _

/-- Serialized values are not eaten by whitespace skipping. -/
theorem skipWs_dumps {v : JVal} (h : WFv v) (X : List Char) :
    skipWs (dumpsV v ++ X) = dumpsV v ++ X := by
  obtain ⟨c, t2, hdv, hws, _, _, _⟩ := dumpsV_head h
  rw [hdv, List.cons_append]
  exact skipWs_cons_of_not_ws _ hws

/-- The length of a well-formed serialization is positive. -/
theorem dumpsV_length_pos {v : JVal} (h : WFv v) : 0 < (dumpsV v).length := by
  obtain ⟨c, t2, hdv, _, _, _, _⟩ := dumpsV_head h
  rw [hdv]
  simp

/-- Rescanning an escaped string body, at the scanner's own fuel. -/
theorem scanString_escStr (s : List Nat) (rest : List Char)
    (hval : ∀ cp ∈ s, cp < 1114112) :
    ∃ s2, scanString (escStr s ++ '"' :: rest) = some (s2, rest) :=
  scanStringF_escStr s.length s ((escStr s ++ '"' :: rest).length + 1) rest
    le_rfl hval (Nat.lt_succ_self _)

/-- Parsing a serialized well-formed value (and the element and member
loops over serialized remainders) succeeds and consumes exactly the
serialization, for any fuel above the input length. -/
theorem parse_dumps_all :
    ∀ fuel : Nat,
      (∀ (v : JVal) (rest : List Char), WFv v → SepOk rest →
        (dumpsV v ++ rest).length < fuel →
        ∃ w, parseP fuel PMode.value (dumpsV v ++ rest) = some (w, rest)) ∧
      (∀ (l : List JVal) (acc : List JVal) (rest : List Char),
        (∀ x ∈ l, WFv x) → SepOk rest →
        (dumpsArrRest l ++ rest).length < fuel →
        ∃ w, parseP fuel (PMode.arrTail acc) (dumpsArrRest l ++ rest) =
          some (w, rest)) ∧
      (∀ (m : List (List Nat × JVal)) (acc : List (List Nat × JVal))
          (rest : List Char),
        (∀ kv ∈ m, (∀ cp ∈ kv.1, cp < 1114112) ∧ WFv kv.2) → SepOk rest →
        (dumpsObjRest m ++ rest).length < fuel →
        ∃ w, parseP fuel (PMode.objTail acc) (dumpsObjRest m ++ rest) =
          some (w, rest)) := by
  intro fuel
  induction fuel using Nat.strong_induction_on with
  | _ fuel IH =>
  cases fuel with
  | zero =>
    refine ⟨?_, ?_, ?_⟩
    · intro v rest _ _ hlen
      exact absurd hlen (Nat.not_lt_zero _)
    · intro l acc rest _ _ hlen
      exact absurd hlen (Nat.not_lt_zero _)
    · intro m acc rest _ _ hlen
      exact absurd hlen (Nat.not_lt_zero _)
  | succ f =>
    obtain ⟨IHv, IHa, IHo⟩ := IH f (Nat.lt_succ_self f)
    refine ⟨?_, ?_, ?_⟩
    · intro v rest hWF hsep hlen
      cases hWF with
      | null =>
        exact ⟨JVal.null,
          by rw [show dumpsV JVal.null = nullTok from rfl, parseP_value_null]⟩
      | bool b =>
        cases b with
        | true =>
          exact ⟨JVal.bool true,
            by rw [show dumpsV (JVal.bool true) = trueTok from rfl, parseP_value_true]⟩
        | false =>
          exact ⟨JVal.bool false,
            by rw [show dumpsV (JVal.bool false) = falseTok from rfl, parseP_value_false]⟩
      | int n =>
        obtain ⟨w, hw⟩ := scanNumber_intToChars n rest hsep
        refine ⟨w, ?_⟩
        show parseP (f + 1) PMode.value (intToChars n ++ rest) = some (w, rest)
        obtain ⟨hne, hdig, _⟩ := natToDigits_spec n.natAbs
        rcases he : natToDigits n.natAbs with _ | ⟨d, t⟩
        · exact absurd he hne
        · have hd := hdig d (by rw [he]; simp)
          by_cases hn : n < 0
          · have hi : intToChars n = '-' :: d :: t := by simp [intToChars, hn, he]
            rw [hi] at hw ⊢
            simp only [List.cons_append] at hw ⊢
            rw [parseP_value_minus f _ hd]
            exact hw
          · have hi : intToChars n = d :: t := by simp [intToChars, hn, he]
            rw [hi] at hw ⊢
            simp only [List.cons_append] at hw ⊢
            rw [parseP_value_digit f _ hd]
            exact hw
      | float tok htok =>
        rcases htok with rfl | rfl | rfl | ⟨neg, ip, fp, ep, rfl, hip, hfp, hep, _⟩
        · exact ⟨JVal.float nanTok,
            by rw [show dumpsV (JVal.float nanTok) = nanTok from rfl, parseP_value_nan]⟩
        · exact ⟨JVal.float infTok,
            by rw [show dumpsV (JVal.float infTok) = infTok from rfl, parseP_value_inf]⟩
        · exact ⟨JVal.float ninfTok,
            by rw [show dumpsV (JVal.float ninfTok) = ninfTok from rfl, parseP_value_ninf]⟩
        · obtain ⟨w, hw⟩ := scanNumber_floatGrammar neg rest hip hfp hep hsep
          refine ⟨w, ?_⟩
          show parseP (f + 1) PMode.value
            (((if neg then ['-'] else []) ++ ip ++ fp ++ ep) ++ rest) = some (w, rest)
          cases neg with
          | true =>
            rcases hip with rfl | ⟨d, ds, hipe, hd, _, _⟩
            · simp only [if_pos, List.cons_append, List.nil_append,
                List.append_assoc, List.singleton_append] at hw ⊢
              rw [parseP_value_minus f _ (by decide)]
              exact hw
            · subst hipe
              simp only [if_pos, List.cons_append, List.nil_append,
                List.append_assoc, List.singleton_append] at hw ⊢
              rw [parseP_value_minus f _ hd]
              exact hw
          | false =>
            rcases hip with rfl | ⟨d, ds, hipe, hd, _, _⟩
            · simp only [List.cons_append, List.nil_append,
                List.append_assoc, List.singleton_append] at hw ⊢
              rw [show (if false = true then ['-'] else ([] : List Char)) = [] from rfl]
              simp only [List.nil_append]
              rw [parseP_value_digit f _ (by decide)]
              exact hw
            · subst hipe
              simp only [List.cons_append, List.nil_append,
                List.append_assoc, List.singleton_append] at hw ⊢
              rw [show (if false = true then ['-'] else ([] : List Char)) = [] from rfl]
              simp only [List.nil_append]
              rw [parseP_value_digit f _ hd]
              exact hw
      | str s hvalcps =>
        obtain ⟨s2, hs2⟩ := scanString_escStr s rest hvalcps
        refine ⟨JVal.str s2, ?_⟩
        show parseP (f + 1) PMode.value (('"' :: (escStr s ++ ['"'])) ++ rest) =
          some (JVal.str s2, rest)
        rw [List.cons_append, parseP_value_quote]
        rw [show (escStr s ++ ['"']) ++ rest = escStr s ++ '"' :: rest from by simp]
        rw [hs2]
        rfl
      | arr l hWFl =>
        rcases l with _ | ⟨v, t⟩
        · refine ⟨JVal.arr [], ?_⟩
          show parseP (f + 1) PMode.value (('[' :: dumpsArr []) ++ rest) = _
          rw [show ('[' :: dumpsArr []) ++ rest = '[' :: (']' :: rest) from rfl]
          rw [parseP_value_lbrack]
          rw [skipWs_cons_of_not_ws _ (by decide)]
          simp
        · have hv := hWFl v (by simp)
          have hWFt : ∀ x ∈ t, WFv x := fun x hx => hWFl x (by simp [hx])
          obtain ⟨c, t2, hdv, hws, hcb, _, _⟩ := dumpsV_head hv
          have hlen2 : (dumpsV v ++ (dumpsArrRest t ++ rest)).length < f := by
            rw [show dumpsV (JVal.arr (v :: t)) = '[' :: dumpsArr (v :: t) from rfl,
              dumpsArr_decomp] at hlen
            simp [List.length_append] at hlen ⊢
            omega
          obtain ⟨w1, hw1⟩ := IHv v (dumpsArrRest t ++ rest) hv
            (sepOk_dumpsArrRest t rest) hlen2
          have hlen3 : (dumpsArrRest t ++ rest).length < f := by
            have hp := dumpsV_length_pos hv
            simp [List.length_append] at hlen2 ⊢
            omega
          obtain ⟨w2, hw2⟩ := IHa t [w1] rest hWFt hsep hlen3
          refine ⟨w2, ?_⟩
          show parseP (f + 1) PMode.value (('[' :: dumpsArr (v :: t)) ++ rest) = _
          rw [show ('[' :: dumpsArr (v :: t)) ++ rest =
            '[' :: (dumpsArr (v :: t) ++ rest) from rfl]
          rw [dumpsArr_decomp, List.append_assoc, parseP_value_lbrack]
          rw [skipWs_dumps hv]
          rw [hdv] at hw1 ⊢
          simp only [List.cons_append] at hw1 ⊢
          rw [if_neg hcb, hw1]
          exact hw2
      | obj m hks hvs =>
        rcases m with _ | ⟨⟨k, v⟩, t⟩
        · refine ⟨JVal.obj [], ?_⟩
          show parseP (f + 1) PMode.value (('{' :: dumpsObj []) ++ rest) = _
          rw [show ('{' :: dumpsObj []) ++ rest = '{' :: ('}' :: rest) from rfl]
          rw [parseP_value_lbrace]
          rw [skipWs_cons_of_not_ws _ (by decide)]
          simp
        · have hkv := hks (k, v) (by simp)
          have hv : WFv v := hvs (k, v) (by simp)
          have hkt : ∀ kv ∈ t, (∀ cp ∈ kv.1, cp < 1114112) ∧ WFv kv.2 :=
            fun kv hx => ⟨hks kv (by simp [hx]), hvs kv (by simp [hx])⟩
          have hlenmem : (dumpsV (JVal.obj ((k, v) :: t)) ++ rest).length =
              1 + 1 + (escStr k).length + 3 +
                ((dumpsV v ++ (dumpsObjRest t ++ rest)).length) := by
            rw [show dumpsV (JVal.obj ((k, v) :: t)) =
              '{' :: dumpsObj ((k, v) :: t) from rfl, dumpsObj_decomp]
            simp [memberChars, List.length_append]
            omega
          have hlen2 : (dumpsV v ++ (dumpsObjRest t ++ rest)).length < f := by
            rw [hlenmem] at hlen
            omega
          obtain ⟨w1, hw1⟩ := IHv v (dumpsObjRest t ++ rest) hv
            (sepOk_dumpsObjRest t rest) hlen2
          have hlen3 : (dumpsObjRest t ++ rest).length < f := by
            have hp := dumpsV_length_pos hv
            simp [List.length_append] at hlen2 ⊢
            omega
          obtain ⟨s2, hs2⟩ := scanString_escStr k
            (':' :: ' ' :: (dumpsV v ++ (dumpsObjRest t ++ rest))) hkv
          obtain ⟨w2, hw2⟩ := IHo t (pyInsert [] s2 w1) rest hkt hsep hlen3
          refine ⟨w2, ?_⟩
          show parseP (f + 1) PMode.value (('{' :: dumpsObj ((k, v) :: t)) ++ rest) = _
          rw [show ('{' :: dumpsObj ((k, v) :: t)) ++ rest =
            '{' :: (dumpsObj ((k, v) :: t) ++ rest) from rfl]
          rw [dumpsObj_decomp]
          rw [show (memberChars (k, v) ++ dumpsObjRest t) ++ rest =
            '"' :: (escStr k ++ '"' :: ':' :: ' ' ::
              (dumpsV v ++ (dumpsObjRest t ++ rest))) from by
            simp [memberChars]]
          rw [parseP_value_lbrace]
          rw [skipWs_cons_of_not_ws _ (by decide)]
          dsimp only
          rw [if_neg (by decide : ¬('"' : Char) = '}'), if_pos rfl]
          rw [hs2]
          dsimp only
          rw [skipWs_cons_of_not_ws _ (by decide)]
          dsimp only
          rw [if_pos rfl]
          rw [skipWs_cons_of_ws _ (by decide), skipWs_dumps hv]
          rw [hw1]
          exact hw2
    · intro l acc rest hWFl hsep hlen
      rcases l with _ | ⟨w, t⟩
      · refine ⟨JVal.arr acc, ?_⟩
        show parseP (f + 1) (PMode.arrTail acc) (dumpsArrRest [] ++ rest) = _
        rw [show dumpsArrRest [] ++ rest = ']' :: rest from rfl, parseP_arrTail]
        rw [skipWs_cons_of_not_ws _ (by decide)]
        simp
      · have hw := hWFl w (by simp)
        have hWFt : ∀ x ∈ t, WFv x := fun x hx => hWFl x (by simp [hx])
        have hlen2 : (dumpsV w ++ (dumpsArrRest t ++ rest)).length < f := by
          rw [show dumpsArrRest (w :: t) ++ rest =
            ',' :: ' ' :: (dumpsV w ++ (dumpsArrRest t ++ rest)) from by
            simp [dumpsArrRest]] at hlen
          simp [List.length_append] at hlen ⊢
          omega
        obtain ⟨w1, hw1⟩ := IHv w (dumpsArrRest t ++ rest) hw
          (sepOk_dumpsArrRest t rest) hlen2
        have hlen3 : (dumpsArrRest t ++ rest).length < f := by
          have hp := dumpsV_length_pos hw
          simp [List.length_append] at hlen2 ⊢
          omega
        obtain ⟨w2, hw2⟩ := IHa t (acc ++ [w1]) rest hWFt hsep hlen3
        refine ⟨w2, ?_⟩
        rw [show dumpsArrRest (w :: t) ++ rest =
          ',' :: ' ' :: (dumpsV w ++ (dumpsArrRest t ++ rest)) from by
          simp [dumpsArrRest]]
        rw [parseP_arrTail]
        rw [skipWs_cons_of_not_ws _ (by decide)]
        dsimp only
        rw [if_neg (by decide : ¬(',' : Char) = ']'), if_pos rfl]
        rw [skipWs_cons_of_ws _ (by decide), skipWs_dumps hw]
        rw [hw1]
        exact hw2
    · intro m acc rest hWFm hsep hlen
      rcases m with _ | ⟨⟨k, v⟩, t⟩
      · refine ⟨JVal.obj acc, ?_⟩
        show parseP (f + 1) (PMode.objTail acc) (dumpsObjRest [] ++ rest) = _
        rw [show dumpsObjRest [] ++ rest = '}' :: rest from rfl, parseP_objTail]
        rw [skipWs_cons_of_not_ws _ (by decide)]
        simp
      · have hkv := (hWFm (k, v) (by simp)).1
        have hv : WFv v := (hWFm (k, v) (by simp)).2
        have hkt : ∀ kv ∈ t, (∀ cp ∈ kv.1, cp < 1114112) ∧ WFv kv.2 :=
          fun kv hx => hWFm kv (by simp [hx])
        have hshape : dumpsObjRest ((k, v) :: t) ++ rest =
            ',' :: ' ' :: ('"' :: (escStr k ++ '"' :: ':' :: ' ' ::
              (dumpsV v ++ (dumpsObjRest t ++ rest)))) := by
          simp [dumpsObjRest, memberChars]
        have hlen2 : (dumpsV v ++ (dumpsObjRest t ++ rest)).length < f := by
          rw [hshape] at hlen
          simp [List.length_append] at hlen ⊢
          omega
        obtain ⟨w1, hw1⟩ := IHv v (dumpsObjRest t ++ rest) hv
          (sepOk_dumpsObjRest t rest) hlen2
        have hlen3 : (dumpsObjRest t ++ rest).length < f := by
          have hp := dumpsV_length_pos hv
          simp [List.length_append] at hlen2 ⊢
          omega
        obtain ⟨s2, hs2⟩ := scanString_escStr k
          (':' :: ' ' :: (dumpsV v ++ (dumpsObjRest t ++ rest))) hkv
        obtain ⟨w2, hw2⟩ := IHo t (pyInsert acc s2 w1) rest hkt hsep hlen3
        refine ⟨w2, ?_⟩
        rw [hshape, parseP_objTail]
        rw [skipWs_cons_of_not_ws _ (by decide)]
        dsimp only
        rw [if_neg (by decide : ¬(',' : Char) = '}'), if_pos rfl]
        rw [skipWs_cons_of_ws _ (by decide)]
        rw [skipWs_cons_of_not_ws _ (by decide)]
        dsimp only
        rw [if_pos rfl]
        rw [hs2]
        dsimp only
        rw [skipWs_cons_of_not_ws _ (by decide)]
        dsimp only
        rw [if_pos rfl]
        rw [skipWs_cons_of_ws _ (by decide), skipWs_dumps hv]
        rw [hw1]
        exact hw2

/-! ## The parser only produces well-formed values -/

/-- Inversion for `consCp`. -/
theorem consCp_some {cp : Nat} {o : Option (List Nat × List Char)}
    {s : List Nat} {r : List Char} (h : consCp cp o = some (s, r)) :
    ∃ s2, o = some (s2, r) ∧ s = cp :: s2 := by
  cases o with
  | none => simp [consCp] at h
  | some p =>
    obtain ⟨s2, r2⟩ := p
    simp [consCp] at h
    obtain ⟨h1, h2⟩ := h
    exact ⟨s2, by rw [h2], h1.symm⟩

/-- Simple escapes decode to small code points. -/
theorem escSimple_lt {e : Char} {cp : Nat} (h : escSimple e = some cp) :
    cp < 1114112 := by
  unfold escSimple at h
  split_ifs at h <;> simp at h <;> omega

/-- Hex digits decode below 16. -/
theorem hexDigitVal_lt {c : Char} {k : Nat} (h : hexDigitVal c = some k) :
    k < 16 := by
  simp only [hexDigitVal, Bool.and_eq_true, decide_eq_true_eq] at h
  split_ifs at h <;> simp at h <;> omega

/-- Four-digit escapes decode below 0x10000. -/
theorem hex4_lt {a b c d : Char} {cp : Nat} (h : hex4 a b c d = some cp) :
    cp < 65536 := by
  unfold hex4 at h
  rcases ha : hexDigitVal a with _ | x <;> rw [ha] at h <;> try simp at h
  rcases hb : hexDigitVal b with _ | y <;> rw [hb] at h <;> try simp at h
  rcases hc : hexDigitVal c with _ | z <;> rw [hc] at h <;> try simp at h
  rcases hd : hexDigitVal d with _ | w <;> rw [hd] at h <;> try simp at h
  have hx := hexDigitVal_lt ha
  have hy := hexDigitVal_lt hb
  have hz := hexDigitVal_lt hc
  have hw := hexDigitVal_lt hd
  omega

/-- Bounds of the surrogate tests. -/
theorem isHighSurr_bounds {n : Nat} (h : isHighSurr n = true) :
    55296 ≤ n ∧ n ≤ 56319 := by
  simp only [isHighSurr, Bool.and_eq_true, decide_eq_true_eq] at h
  exact h

/-- Bounds of the low surrogate test. -/
theorem isLowSurr_bounds {n : Nat} (h : isLowSurr n = true) :
    56320 ≤ n ∧ n ≤ 57343 := by
  simp only [isLowSurr, Bool.and_eq_true, decide_eq_true_eq] at h
  exact h

/-- Every code point the string scanner produces is valid. -/
theorem scanStringF_valid :
    ∀ fuel cs s r, scanStringF fuel cs = some (s, r) → ∀ cp ∈ s, cp < 1114112 := by
  intro fuel
  induction fuel with
  | zero => intro cs s r h; simp [scanStringF] at h
  | succ f ih =>
    intro cs s r h
    have step : ∀ (cp : Nat) (r3 : List Char), cp < 1114112 →
        consCp cp (scanStringF f r3) = some (s, r) → ∀ x ∈ s, x < 1114112 := by
      intro cp r3 hcp hcons x hx
      obtain ⟨s2, hrec, rfl⟩ := consCp_some hcons
      rcases List.mem_cons.mp hx with rfl | hx2
      · exact hcp
      · exact ih r3 s2 r hrec x hx2
    rcases cs with _ | ⟨c, r0⟩
    · simp [scanStringF] at h
    simp only [scanStringF] at h
    split_ifs at h with hq hb hctrl
    · intro cp hcp
      simp at h
      rw [h.1] at hcp
      simp at hcp
    · rcases r0 with _ | ⟨e, r2⟩
      · simp at h
      dsimp only at h
      split_ifs at h with hu
      · rcases r2 with _ | ⟨h1, _ | ⟨h2, _ | ⟨h3, _ | ⟨h4, r3⟩⟩⟩⟩
        · simp at h
        · simp at h
        · simp at h
        · simp at h
        dsimp only at h
        rcases hhex : hex4 h1 h2 h3 h4 with _ | cp <;> rw [hhex] at h
        · simp at h
        have hcplt : cp < 1114112 := by have := hex4_lt hhex; omega
        dsimp only at h
        split_ifs at h with hH
        · rcases r3 with _ | ⟨b1, _ | ⟨b2, rest4⟩⟩
          · dsimp only at h
            exact step cp _ hcplt h
          · dsimp only at h
            exact step cp _ hcplt h
          dsimp only at h
          split_ifs at h with hbu
          · rcases rest4 with _ | ⟨g1, _ | ⟨g2, _ | ⟨g3, _ | ⟨g4, r5⟩⟩⟩⟩
            · simp at h
            · simp at h
            · simp at h
            · simp at h
            dsimp only at h
            rcases hhex2 : hex4 g1 g2 g3 g4 with _ | cp2 <;> rw [hhex2] at h
            · simp at h
            dsimp only at h
            split_ifs at h with hL
            · obtain ⟨hc1, hc2⟩ := isHighSurr_bounds hH
              obtain ⟨hd1, hd2⟩ := isLowSurr_bounds hL
              exact step _ _ (by omega) h
            · exact step cp _ hcplt h
          · exact step cp _ hcplt h
        · exact step cp _ hcplt h
      · rcases hesc : escSimple e with _ | cp
        · rw [hesc] at h
          exact absurd h (by simp)
        · rw [hesc] at h
          exact step cp _ (escSimple_lt hesc) h
    · exact step c.toNat _ (char_toNat_lt c) h

/-- The integer part scanner only returns well-shaped integer parts. -/
theorem scanIntPart_shape {cs ip : List Char} {r : List Char}
    (h : scanIntPart cs = some (ip, r)) : IntPartOk ip := by
  rcases cs with _ | ⟨c, r0⟩
  · simp [scanIntPart] at h
  simp only [scanIntPart] at h
  split_ifs at h with h0 hd
  · simp at h
    rcases h with ⟨h1, h2⟩
    subst h1
    exact Or.inl rfl
  · simp at h
    rcases h with ⟨h1, h2⟩
    subst h1
    refine Or.inr ⟨c, r0.takeWhile isDigit, rfl, hd, h0, ?_⟩
    intro x hx
    exact List.mem_takeWhile_imp hx

/-- The fraction scanner only returns well-shaped fractions. -/
theorem scanFrac_shape {cs fp r : List Char} (h : scanFrac cs = (fp, r)) :
    FracOk fp := by
  rcases cs with _ | ⟨c, r0⟩
  · simp [scanFrac] at h
    rcases h with ⟨h1, h2⟩
    subst h1
    exact Or.inl rfl
  simp only [scanFrac] at h
  split_ifs at h with hdot hempty
  · simp at h
    rcases h with ⟨h1, h2⟩
    subst h1
    exact Or.inl rfl
  · simp at h
    rcases h with ⟨h1, h2⟩
    subst h1
    refine Or.inr ⟨r0.takeWhile isDigit, rfl, ?_, ?_⟩
    · simpa [List.isEmpty_iff] using hempty
    · intro x hx
      exact List.mem_takeWhile_imp hx
  · simp at h
    rcases h with ⟨h1, h2⟩
    subst h1
    exact Or.inl rfl

/-- The exponent scanner only returns well-shaped exponents. -/
theorem scanExp_shape {cs ep r : List Char} (h : scanExp cs = (ep, r)) :
    ExpOk ep := by
  rcases cs with _ | ⟨c, r0⟩
  · simp [scanExp] at h
    rcases h with ⟨h1, h2⟩
    subst h1
    exact Or.inl rfl
  rcases r0 with _ | ⟨c2, r2⟩
  · simp only [scanExp] at h
    split_ifs at h <;>
      (rw [Prod.mk.injEq] at h; obtain ⟨h1, h2⟩ := h; subst h1; exact Or.inl rfl)
  simp only [scanExp] at h
  split_ifs at h with he hsg hemp hemp2
  · rw [Prod.mk.injEq] at h
    obtain ⟨h1, h2⟩ := h
    subst h1
    exact Or.inl rfl
  · have hor : c = 'e' ∨ c = 'E' := by simpa using he
    have hsg2 : c2 = '+' ∨ c2 = '-' := by simpa using hsg
    rw [Prod.mk.injEq] at h
    obtain ⟨h1, h2⟩ := h
    subst h1
    refine Or.inr ⟨c, [c2], r2.takeWhile isDigit, rfl, hor, ?_, ?_, ?_⟩
    · rcases hsg2 with rfl | rfl
      · exact Or.inr (Or.inl rfl)
      · exact Or.inr (Or.inr rfl)
    · simpa [List.isEmpty_iff] using hemp
    · intro x hx
      exact List.mem_takeWhile_imp hx
  · rw [Prod.mk.injEq] at h
    obtain ⟨h1, h2⟩ := h
    subst h1
    exact Or.inl rfl
  · have hor : c = 'e' ∨ c = 'E' := by simpa using he
    rw [Prod.mk.injEq] at h
    obtain ⟨h1, h2⟩ := h
    subst h1
    refine Or.inr ⟨c, [], (c2 :: r2).takeWhile isDigit, rfl, hor, Or.inl rfl, ?_, ?_⟩
    · simpa [List.isEmpty_iff] using hemp2
    · intro x hx
      exact List.mem_takeWhile_imp hx
  · rw [Prod.mk.injEq] at h
    obtain ⟨h1, h2⟩ := h
    subst h1
    exact Or.inl rfl

/-- The unsigned number scanner only returns well-formed values. -/
theorem scanNumCore_shape {neg : Bool} {cs : List Char} {v : JVal} {r : List Char}
    (h : scanNumCore neg cs = some (v, r)) : WFv v := by
  simp only [scanNumCore] at h
  rcases hip : scanIntPart cs with _ | ⟨ip, r1⟩ <;> rw [hip] at h
  · simp at h
  dsimp only at h
  rcases hfr : scanFrac r1 with ⟨fp, r2⟩
  rcases hex : scanExp r2 with ⟨ep, r3⟩
  rw [hfr] at h
  dsimp only at h
  rw [hex] at h
  dsimp only at h
  by_cases hemp : (fp.isEmpty && ep.isEmpty) = true
  · rw [if_pos hemp] at h
    rw [Option.some.injEq, Prod.mk.injEq] at h
    obtain ⟨h1, h2⟩ := h
    subst h1
    exact WFv.int _
  · rw [if_neg hemp] at h
    rw [Option.some.injEq, Prod.mk.injEq] at h
    obtain ⟨h1, h2⟩ := h
    subst h1
    refine WFv.float _ (Or.inr (Or.inr (Or.inr
      ⟨neg, ip, fp, ep, rfl, scanIntPart_shape hip, scanFrac_shape hfr, scanExp_shape hex, ?_⟩)))
    rcases not_and_or.mp (by simpa [List.isEmpty_iff, Bool.and_eq_true] using hemp) with hh | hh
    · exact Or.inl hh
    · exact Or.inr hh

/-- The number scanner only returns well-formed values. -/
theorem scanNumber_shape {cs : List Char} {v : JVal} {r : List Char}
    (h : scanNumber cs = some (v, r)) : WFv v := by
  rcases cs with _ | ⟨c, r0⟩
  · simp [scanNumber] at h
  simp only [scanNumber] at h
  split_ifs at h with hm
  · exact scanNumCore_shape h
  · exact scanNumCore_shape h

/-- Code points produced by the string scanner are valid. -/
theorem scanString_valid (cs : List Char) (s : List Nat) (r : List Char)
    (h : scanString cs = some (s, r)) : ∀ cp ∈ s, cp < 1114112 :=
  scanStringF_valid _ _ _ _ h

/-- `pyInsert` preserves any property holding of all pairs. -/
theorem pyInsert_forall (P : List Nat × JVal → Prop) :
    ∀ (m : List (List Nat × JVal)) (k : List Nat) (v : JVal),
    (∀ kv ∈ m, P kv) → P (k, v) → ∀ kv ∈ pyInsert m k v, P kv := by
  intro m
  induction m with
  | nil =>
    intro k v _ hkv kv hmem
    simp [pyInsert] at hmem
    subst hmem
    exact hkv
  | cons p rest ih =>
    obtain ⟨k0, v0⟩ := p
    intro k v hm hkv kv hmem
    simp only [pyInsert] at hmem
    split_ifs at hmem with hk
    · rcases List.mem_cons.mp hmem with rfl | h2
      · rw [hk]
        exact hkv
      · exact hm _ (List.mem_cons_of_mem _ h2)
    · rcases List.mem_cons.mp hmem with rfl | h2
      · exact hm _ (List.mem_cons_self _ _)
      · exact ih k v (fun x hx => hm x (List.mem_cons_of_mem _ hx)) hkv _ h2

/-- The parser only produces well-formed values, in every mode, given
well-formed accumulators. -/
theorem parseP_wf : ∀ fuel : Nat,
    (∀ cs w rest, parseP fuel PMode.value cs = some (w, rest) → WFv w) ∧
    (∀ acc cs w rest, (∀ x ∈ acc, WFv x) →
      parseP fuel (PMode.arrTail acc) cs = some (w, rest) → WFv w) ∧
    (∀ acc cs w rest,
      (∀ kv ∈ acc, (∀ cp ∈ kv.1, cp < 1114112) ∧ WFv kv.2) →
      parseP fuel (PMode.objTail acc) cs = some (w, rest) → WFv w) := by
  intro fuel
  induction fuel with
  | zero =>
    refine ⟨?_, ?_, ?_⟩
    · intro cs w rest h
      simp [parseP] at h
    · intro acc cs w rest _ h
      simp [parseP] at h
    · intro acc cs w rest _ h
      simp [parseP] at h
  | succ fuel ih =>
    obtain ⟨ihv, iha, iho⟩ := ih
    refine ⟨?_, ?_, ?_⟩
    · intro cs w rest h
      simp only [parseP] at h
      rcases cs with _ | ⟨c, r⟩
      · simp at h
      dsimp only at h
      split_ifs at h with hq hbr hbk hnull htrue hfalse hnan hinf hninf
      · rcases hs : scanString r with _ | ⟨s, r2⟩ <;> rw [hs] at h
        · simp at h
        dsimp only [Option.map] at h
        rw [Option.some.injEq, Prod.mk.injEq] at h
        obtain ⟨h1, _⟩ := h
        subst h1
        exact WFv.str s (scanString_valid r s r2 hs)
      · rcases hsw : skipWs r with _ | ⟨c2, r2⟩ <;> rw [hsw] at h
        · simp at h
        dsimp only at h
        by_cases h2 : c2 = '}'
        · rw [if_pos h2] at h
          rw [Option.some.injEq, Prod.mk.injEq] at h
          obtain ⟨h1, _⟩ := h
          subst h1
          exact WFv.obj [] (by simp) (by simp)
        · rw [if_neg h2] at h
          by_cases h2q : c2 = '"'
          · rw [if_pos h2q] at h
            rcases hsc : scanString r2 with _ | ⟨k, r3⟩ <;> rw [hsc] at h
            · simp at h
            dsimp only at h
            rcases hsw3 : skipWs r3 with _ | ⟨c3, r4⟩ <;> rw [hsw3] at h
            · simp at h
            dsimp only at h
            by_cases h3 : c3 = ':'
            · rw [if_pos h3] at h
              rcases hpv : parseP fuel PMode.value (skipWs r4) with _ | ⟨v, r5⟩ <;> rw [hpv] at h
              · simp at h
              dsimp only at h
              refine iho (pyInsert [] k v) r5 w rest ?_ h
              exact pyInsert_forall _ [] k v (by simp)
                ⟨scanString_valid r2 k r3 hsc, ihv _ _ _ hpv⟩
            · rw [if_neg h3] at h
              simp at h
          · rw [if_neg h2q] at h
            simp at h
      · rcases hsw : skipWs r with _ | ⟨c2, r2⟩ <;> rw [hsw] at h
        · simp at h
        dsimp only at h
        by_cases h2 : c2 = ']'
        · rw [if_pos h2] at h
          rw [Option.some.injEq, Prod.mk.injEq] at h
          obtain ⟨h1, _⟩ := h
          subst h1
          exact WFv.arr [] (by simp)
        · rw [if_neg h2] at h
          rcases hpv : parseP fuel PMode.value (c2 :: r2) with _ | ⟨v, r3⟩ <;> rw [hpv] at h
          · simp at h
          dsimp only at h
          refine iha [v] r3 w rest ?_ h
          intro x hx
          simp at hx
          subst hx
          exact ihv _ _ _ hpv
      · rw [Option.some.injEq, Prod.mk.injEq] at h
        obtain ⟨h1, _⟩ := h
        subst h1
        exact WFv.null
      · rw [Option.some.injEq, Prod.mk.injEq] at h
        obtain ⟨h1, _⟩ := h
        subst h1
        exact WFv.bool true
      · rw [Option.some.injEq, Prod.mk.injEq] at h
        obtain ⟨h1, _⟩ := h
        subst h1
        exact WFv.bool false
      · rw [Option.some.injEq, Prod.mk.injEq] at h
        obtain ⟨h1, _⟩ := h
        subst h1
        exact WFv.float nanTok (Or.inl rfl)
      · rw [Option.some.injEq, Prod.mk.injEq] at h
        obtain ⟨h1, _⟩ := h
        subst h1
        exact WFv.float infTok (Or.inr (Or.inl rfl))
      · rw [Option.some.injEq, Prod.mk.injEq] at h
        obtain ⟨h1, _⟩ := h
        subst h1
        exact WFv.float ninfTok (Or.inr (Or.inr (Or.inl rfl)))
      · exact scanNumber_shape h
    · intro acc cs w rest hacc h
      simp only [parseP] at h
      rcases hsw : skipWs cs with _ | ⟨c, r⟩ <;> rw [hsw] at h
      · simp at h
      dsimp only at h
      by_cases h1 : c = ']'
      · rw [if_pos h1] at h
        rw [Option.some.injEq, Prod.mk.injEq] at h
        obtain ⟨he, _⟩ := h
        subst he
        exact WFv.arr acc hacc
      · rw [if_neg h1] at h
        by_cases h2 : c = ','
        · rw [if_pos h2] at h
          rcases hpv : parseP fuel PMode.value (skipWs r) with _ | ⟨v, r2⟩ <;> rw [hpv] at h
          · simp at h
          dsimp only at h
          refine iha (acc ++ [v]) r2 w rest ?_ h
          intro x hx
          rcases List.mem_append.mp hx with hx2 | hx2
          · exact hacc x hx2
          · simp at hx2
            subst hx2
            exact ihv _ _ _ hpv
        · rw [if_neg h2] at h
          simp at h
    · intro acc cs w rest hacc h
      simp only [parseP] at h
      rcases hsw : skipWs cs with _ | ⟨c, r⟩ <;> rw [hsw] at h
      · simp at h
      dsimp only at h
      by_cases h1 : c = '}'
      · rw [if_pos h1] at h
        rw [Option.some.injEq, Prod.mk.injEq] at h
        obtain ⟨he, _⟩ := h
        subst he
        exact WFv.obj acc (fun kv hkv => (hacc kv hkv).1) (fun kv hkv => (hacc kv hkv).2)
      · rw [if_neg h1] at h
        by_cases h2 : c = ','
        · rw [if_pos h2] at h
          rcases hsw2 : skipWs r with _ | ⟨c2, r2⟩ <;> rw [hsw2] at h
          · simp at h
          dsimp only at h
          by_cases h2q : c2 = '"'
          · rw [if_pos h2q] at h
            rcases hsc : scanString r2 with _ | ⟨k, r3⟩ <;> rw [hsc] at h
            · simp at h
            dsimp only at h
            rcases hsw3 : skipWs r3 with _ | ⟨c3, r4⟩ <;> rw [hsw3] at h
            · simp at h
            dsimp only at h
            by_cases h3 : c3 = ':'
            · rw [if_pos h3] at h
              rcases hpv : parseP fuel PMode.value (skipWs r4) with _ | ⟨v, r5⟩ <;> rw [hpv] at h
              · simp at h
              dsimp only at h
              refine iho (pyInsert acc k v) r5 w rest ?_ h
              exact pyInsert_forall _ acc k v hacc
                ⟨scanString_valid r2 k r3 hsc, ihv _ _ _ hpv⟩
            · rw [if_neg h3] at h
              simp at h
          · rw [if_neg h2q] at h
            simp at h
        · rw [if_neg h2] at h
          simp at h

/-- `loadsL` only returns well-formed values. -/
theorem loadsL_wf {cs : List Char} {v : JVal} (h : loadsL cs = some v) : WFv v := by
  simp only [loadsL] at h
  rcases hp : parseP (cs.length + 1) PMode.value (skipWs cs) with _ | ⟨w, rest⟩ <;> rw [hp] at h
  · simp at h
  dsimp only at h
  split_ifs at h with hr
  rw [Option.some.injEq] at h
  subst h
  exact (parseP_wf (cs.length + 1)).1 _ _ _ hp

/-- Serializing a well-formed value yields a string `loadsL` accepts. -/
theorem loadsL_dumpsV {v : JVal} (h : WFv v) : ∃ w, loadsL (dumpsV v) = some w := by
  obtain ⟨w, hw⟩ := (parse_dumps_all ((dumpsV v).length + 1)).1 v [] h sepOk_nil
    (by simp)
  refine ⟨w, ?_⟩
  have hsw : skipWs (dumpsV v) = dumpsV v := by
    have := skipWs_dumps h []
    simpa using this
  simp only [loadsL, hsw]
  rw [List.append_nil] at hw
  rw [hw]
  simp [skipWs]

/-- C2: for every text (present or absent) and every default that is
absent or parses as JSON, the extractor's return value is a string that
parses as JSON or is absent, and it is absent only when the default was
absent. -/
theorem extract_output_parses (text d : Option (List Char))
    (hd : ∀ s, d = some s → (loadsL s).isSome) :
    (∀ s, (extract_json_from_string text d).ret = some s → (loadsL s).isSome) ∧
    ((extract_json_from_string text d).ret = none → d = none) := by
  rcases extract_shape text d with ⟨cand, v, hv, he⟩ | he | he | he
  · constructor
    · intro s hs
      rw [he] at hs
      simp only [okRes] at hs
      rw [Option.some.injEq] at hs
      subst hs
      obtain ⟨w, hw⟩ := loadsL_dumpsV (loadsL_wf hv)
      simp [hw]
    · intro hnone
      rw [he] at hnone
      simp [okRes] at hnone
  · refine ⟨fun s hs => hd s ?_, fun hnone => ?_⟩
    · rw [he] at hs
      exact hs
    · rw [he] at hnone
      exact hnone
  · refine ⟨fun s hs => hd s ?_, fun hnone => ?_⟩
    · rw [he] at hs
      exact hs
    · rw [he] at hnone
      exact hnone
  · refine ⟨fun s hs => hd s ?_, fun hnone => ?_⟩
    · rw [he] at hs
      exact hs
    · rw [he] at hnone
      exact hnone

/-- The C2 theorem applied at a concrete text and default. -/
theorem extract_output_parses_witness :
    (∀ s, (some ['{', '}'] : Option (List Char)) = some s → (loadsL s).isSome) ∧
    ((∀ s, (extract_json_from_string (some ['4', '2']) (some ['{', '}'])).ret = some s →
        (loadsL s).isSome) ∧
     ((extract_json_from_string (some ['4', '2']) (some ['{', '}'])).ret = none →
        (some ['{', '}'] : Option (List Char)) = none)) :=
  ⟨fun s hs => by rw [Option.some.injEq] at hs; subst hs; decide,
   extract_output_parses (some ['4', '2']) (some ['{', '}'])
     (fun s hs => by rw [Option.some.injEq] at hs; subst hs; decide)⟩

/-- The head of a tick run is a backtick. -/
theorem startsTicks_head {c : Char} {r : List Char}
    (h : startsTicks (c :: r) = true) : c = '`' := by
  unfold startsTicks at h
  split at h
  all_goals
    first
    | (rename_i heq; injection heq)
    | simp at h

/-- The fence pattern cannot match in a text without backticks. -/
theorem fenceSearch_none_of_no_backtick :
    ∀ cs : List Char, (∀ c ∈ cs, c ≠ '`') → fenceSearch cs = none := by
  intro cs
  induction cs with
  | nil =>
    intro _
    rfl
  | cons c r ih =>
    intro hnb
    have ht : fenceTryAt (c :: r) = none := by
      unfold fenceTryAt
      have hs : startsTicks (c :: r) = false := by
        cases hb : startsTicks (c :: r)
        · rfl
        · exact absurd (startsTicks_head hb) (hnb c (List.mem_cons_self _ _))
      rw [hs]
      rfl
    simp only [fenceSearch]
    rw [ht]
    exact ih (fun x hx => hnb x (List.mem_cons_of_mem _ hx))

/-- Text of the C3 counterexample: a valid JSON object whose string value
contains a backtick fence around a smaller JSON object. -/
def fencedStringText : List Char :=
  ['{', '"', 'm', 's', 'g', '"', ':', ' ', '"', 'u', 's', 'e', ' ', '`', '`',
   '`', '{', '}', ' ', '`', '`', '`', ' ', 'b', 'l', 'o', 'c', 'k', 's', '"', '}']

set_option maxRecDepth 8000 in
/-- C3 counterexample: the text is itself valid JSON, yet the extractor
does not return a re-serialization of its value, because the fence
pattern of strategy 1 matches inside the string literal and strategy 1
runs before the whole-text strategy. -/
theorem fence_matches_inside_string_literal :
    (loadsL fencedStringText).isSome = true ∧
    (extract_json_from_string (some fencedStringText) (some ['[', ']'])).ret ≠
      Option.map dumpsV (loadsL fencedStringText) := by
  constructor
  · decide
  · decide

/-- C3 (amended): for text that is valid JSON and contains no backtick,
the extractor returns the re-serialization of its value, with no side
effects, independent of the default. -/
theorem extract_whole_valid_json_roundtrip (cs : List Char)
    (d : Option (List Char)) (v : JVal) (hne : cs ≠ [])
    (hnb : ∀ c ∈ cs, c ≠ '`') (hp : loadsL (pyStrip cs) = some v) :
    extract_json_from_string (some cs) d = okRes v := by
  rcases cs with _ | ⟨c, r⟩
  · exact absurd rfl hne
  show stage1 (c :: r) d = okRes v
  unfold stage1
  rw [fenceSearch_none_of_no_backtick _ hnb]
  unfold stage2 tryNorm
  rw [hp]

set_option maxRecDepth 8000 in
/-- The C3 theorem applied at a concrete valid JSON text. -/
theorem extract_whole_valid_json_roundtrip_witness :
    (['{', '"', 'a', '"', ':', ' ', '1', '}'] : List Char) ≠ [] ∧
    (∀ c ∈ (['{', '"', 'a', '"', ':', ' ', '1', '}'] : List Char), c ≠ '`') ∧
    loadsL (pyStrip ['{', '"', 'a', '"', ':', ' ', '1', '}']) =
      some (JVal.obj [([97], JVal.int 1)]) ∧
    extract_json_from_string (some ['{', '"', 'a', '"', ':', ' ', '1', '}']) none =
      okRes (JVal.obj [([97], JVal.int 1)]) :=
  ⟨by decide, by decide, by rfl,
   extract_whole_valid_json_roundtrip ['{', '"', 'a', '"', ':', ' ', '1', '}']
     none (JVal.obj [([97], JVal.int 1)]) (by decide) (by decide) (by rfl)⟩

/-- No group match ends in a list free of the closing character. -/
theorem fenceGroupTail_none (closer : Char) :
    ∀ S : List Char, (∀ c ∈ S, c ≠ closer) → fenceGroupTail closer S = none := by
  intro S
  induction S with
  | nil =>
    intro _
    rfl
  | cons c r ih =>
    intro hn
    have hne : c ≠ closer := hn c (List.mem_cons_self _ _)
    simp [fenceGroupTail, ih (fun x hx => hn x (List.mem_cons_of_mem _ hx)), hne]

/-- The greedy group ends exactly at the last closing character when the
continuation holds no further closer and closes the fence. -/
theorem fenceGroupTail_exact (closer : Char) (S : List Char)
    (hS : fenceGroupTail closer S = none) (hclose : fenceClose S = true) :
    ∀ ys : List Char, fenceGroupTail closer (ys ++ closer :: S) = some (ys ++ [closer]) := by
  intro ys
  induction ys with
  | nil =>
    simp only [List.nil_append, fenceGroupTail]
    rw [hS]
    simp [hclose]
  | cons y ys ih =>
    simp only [List.cons_append, fenceGroupTail, List.append_eq]
    rw [ih]

/-- A whitespace run followed by three backticks closes the fence. -/
theorem fenceClose_ws_ticks (W X : List Char) (hW : ∀ c ∈ W, pyWs c = true) :
    fenceClose (W ++ '`' :: '`' :: '`' :: X) = true := by
  unfold fenceClose
  rw [dropWhile_app W _ hW (fun c hc => by
    simp only [List.head?_cons, Option.some.injEq] at hc
    subst hc
    decide)]
  rfl

/-- The group match on a bracket-delimited span before the fence close. -/
theorem fenceBody_exact (w1 body W post : List Char) (op closer : Char)
    (hop : (op = '{' ∧ closer = '}') ∨ (op = '[' ∧ closer = ']'))
    (hw1 : ∀ c ∈ w1, pyWs c = true)
    (hW : ∀ c ∈ W, pyWs c = true)
    (hpost : ∀ c ∈ post, c ≠ closer) :
    fenceBody (w1 ++ op :: (body ++ closer :: (W ++ '`' :: '`' :: '`' :: post))) =
      some (op :: (body ++ [closer])) := by
  have hSnc : ∀ c ∈ W ++ '`' :: '`' :: '`' :: post, c ≠ closer := by
    intro c hc
    rcases List.mem_append.mp hc with hc | hc
    · intro he
      have hwsc := hW _ hc
      rw [he] at hwsc
      rcases hop with ⟨_, h2⟩ | ⟨_, h2⟩ <;> subst h2 <;> exact absurd hwsc (by decide)
    · rcases List.mem_cons.mp hc with rfl | hc
      · rcases hop with ⟨_, h2⟩ | ⟨_, h2⟩ <;> subst h2 <;> decide
      rcases List.mem_cons.mp hc with rfl | hc
      · rcases hop with ⟨_, h2⟩ | ⟨_, h2⟩ <;> subst h2 <;> decide
      rcases List.mem_cons.mp hc with rfl | hc
      · rcases hop with ⟨_, h2⟩ | ⟨_, h2⟩ <;> subst h2 <;> decide
      · exact hpost _ hc
  have hgt := fenceGroupTail_exact closer (W ++ '`' :: '`' :: '`' :: post)
    (fenceGroupTail_none closer _ hSnc) (fenceClose_ws_ticks W post hW) body
  have hop_ws : pyWs op = false := by
    rcases hop with ⟨h1, _⟩ | ⟨h1, _⟩ <;> subst h1 <;> decide
  rcases hop with ⟨rfl, rfl⟩ | ⟨rfl, rfl⟩
  · unfold fenceBody
    rw [dropWhile_app w1 _ hw1 (fun c hc => by
      simp only [List.head?_cons, Option.some.injEq] at hc
      subst hc
      exact hop_ws)]
    show (fenceGroupTail '}' (body ++ '}' :: (W ++ '`' :: '`' :: '`' :: post))).map
        (fun t => '{' :: t) = some ('{' :: (body ++ ['}']))
    rw [hgt]
    rfl
  · unfold fenceBody
    rw [dropWhile_app w1 _ hw1 (fun c hc => by
      simp only [List.head?_cons, Option.some.injEq] at hc
      subst hc
      exact hop_ws)]
    show (fenceGroupTail ']' (body ++ ']' :: (W ++ '`' :: '`' :: '`' :: post))).map
        (fun t => '[' :: t) = some ('[' :: (body ++ [']']))
    rw [hgt]
    rfl

/-- A matching tag test forces the head's lowercase form. -/
theorem lower4json_head {a : Char} {l : List Char}
    (h : lower4json (a :: l) = true) : a.toLower = 'j' := by
  unfold lower4json at h
  split at h
  all_goals
    first
    | (rename_i heq
       injection heq with h1 _
       rw [h1]
       simp only [Bool.and_eq_true, decide_eq_true_eq] at h
       exact h.1.1.1)
    | simp at h

/-- Python whitespace never lowercases to the letter j. -/
theorem pyWs_toLower_ne_j {a : Char} (hws : pyWs a = true) : a.toLower ≠ 'j' := by
  intro hc
  have h2 : a.toLower.toNat = 106 := by
    rw [hc]
    rfl
  simp only [Char.toLower] at h2
  have hm : a.toNat = 9 ∨ a.toNat = 10 ∨ a.toNat = 11 ∨ a.toNat = 12 ∨ a.toNat = 13 ∨
      a.toNat = 28 ∨ a.toNat = 29 ∨ a.toNat = 30 ∨ a.toNat = 31 ∨ a.toNat = 32 ∨
      a.toNat = 133 ∨ a.toNat = 160 ∨ a.toNat = 5760 ∨ a.toNat = 8192 ∨
      a.toNat = 8193 ∨ a.toNat = 8194 ∨ a.toNat = 8195 ∨ a.toNat = 8196 ∨
      a.toNat = 8197 ∨ a.toNat = 8198 ∨ a.toNat = 8199 ∨ a.toNat = 8200 ∨
      a.toNat = 8201 ∨ a.toNat = 8202 ∨ a.toNat = 8232 ∨ a.toNat = 8233 ∨
      a.toNat = 8239 ∨ a.toNat = 8287 ∨ a.toNat = 12288 := by
    simpa [pyWs, List.contains] using hws
  by_cases hcond : 65 ≤ a.toNat ∧ a.toNat ≤ 90
  · omega
  · rw [if_neg hcond] at h2
    omega

/-- The tag test succeeds on a literal lowercase json tag. -/
theorem lower4json_json (Z : List Char) :
    lower4json ('j' :: 's' :: 'o' :: 'n' :: Z) = true := rfl

/-- One fence attempt after the three literal ticks. -/
theorem fenceTryAt_ticks (Y : List Char) :
    fenceTryAt ('`' :: '`' :: '`' :: Y) =
      (if lower4json Y then
        match fenceBody (Y.drop 4) with
        | some g => some g
        | none => fenceBody Y
      else fenceBody Y) := rfl

/-- The fence attempt at the opening ticks recovers exactly the
bracket-delimited group. -/
theorem fenceTryAt_exact (tag w1 body W post : List Char) (op closer : Char)
    (htag : tag = ['j', 's', 'o', 'n'] ∨ tag = [])
    (hop : (op = '{' ∧ closer = '}') ∨ (op = '[' ∧ closer = ']'))
    (hw1 : ∀ c ∈ w1, pyWs c = true)
    (hW : ∀ c ∈ W, pyWs c = true)
    (hpost : ∀ c ∈ post, c ≠ closer) :
    fenceTryAt ('`' :: '`' :: '`' ::
        (tag ++ (w1 ++ op :: (body ++ closer :: (W ++ '`' :: '`' :: '`' :: post))))) =
      some (op :: (body ++ [closer])) := by
  have hfb := fenceBody_exact w1 body W post op closer hop hw1 hW hpost
  rw [fenceTryAt_ticks]
  rcases htag with rfl | rfl
  · simp only [List.cons_append, List.nil_append]
    rw [if_pos (lower4json_json _)]
    show (match fenceBody (w1 ++ op :: (body ++ closer ::
        (W ++ '`' :: '`' :: '`' :: post))) with
      | some g => some g
      | none => fenceBody ('j' :: 's' :: 'o' :: 'n' ::
          (w1 ++ op :: (body ++ closer :: (W ++ '`' :: '`' :: '`' :: post))))) =
      some (op :: (body ++ [closer]))
    rw [hfb]
  · simp only [List.nil_append]
    have hl4 : lower4json (w1 ++ op :: (body ++ closer ::
        (W ++ '`' :: '`' :: '`' :: post))) = false := by
      rcases w1 with _ | ⟨a, w1t⟩
      · simp only [List.nil_append]
        cases hll : lower4json (op :: (body ++ closer :: (W ++ '`' :: '`' :: '`' :: post)))
        · rfl
        · have := lower4json_head hll
          rcases hop with ⟨h1, _⟩ | ⟨h1, _⟩ <;> subst h1 <;> exact absurd this (by decide)
      · simp only [List.cons_append]
        cases hll : lower4json (a :: (w1t ++ op :: (body ++ closer ::
            (W ++ '`' :: '`' :: '`' :: post))))
        · rfl
        · exact absurd (lower4json_head hll)
            (pyWs_toLower_ne_j (hw1 a (List.mem_cons_self _ _)))
    rw [hl4]
    rw [if_neg (by simp)]
    exact hfb

/-- The leftmost scan skips a backtick-free prefix. -/
theorem fenceSearch_skip (pre : List Char) (hpre : ∀ c ∈ pre, c ≠ '`') (t : List Char) :
    fenceSearch (pre ++ t) = fenceSearch t := by
  induction pre with
  | nil => simp
  | cons c p ih =>
    have hct : fenceTryAt (c :: (p ++ t)) = none := by
      unfold fenceTryAt
      have hs : startsTicks (c :: (p ++ t)) = false := by
        cases hb : startsTicks (c :: (p ++ t))
        · rfl
        · exact absurd (startsTicks_head hb) (hpre c (List.mem_cons_self _ _))
      rw [hs]
      rfl
    simp only [List.cons_append, fenceSearch, List.append_eq]
    rw [hct]
    exact ih (fun x hx => hpre x (List.mem_cons_of_mem _ hx))

/-- The fence regex search on a single well-formed fenced block. -/
theorem fenceSearch_exact (pre tag w1 body W post : List Char) (op closer : Char)
    (hpre : ∀ c ∈ pre, c ≠ '`')
    (htag : tag = ['j', 's', 'o', 'n'] ∨ tag = [])
    (hop : (op = '{' ∧ closer = '}') ∨ (op = '[' ∧ closer = ']'))
    (hw1 : ∀ c ∈ w1, pyWs c = true)
    (hW : ∀ c ∈ W, pyWs c = true)
    (hpost : ∀ c ∈ post, c ≠ closer) :
    fenceSearch (pre ++ '`' :: '`' :: '`' ::
        (tag ++ (w1 ++ op :: (body ++ closer :: (W ++ '`' :: '`' :: '`' :: post))))) =
      some (op :: (body ++ [closer])) := by
  rw [fenceSearch_skip pre hpre]
  simp only [fenceSearch]
  rw [fenceTryAt_exact tag w1 body W post op closer htag hop hw1 hW hpost]

/-- Stripping is the identity on a span delimited by non-whitespace. -/
theorem pyStrip_id_of_ends (a b : Char) (mid : List Char)
    (ha : pyWs a = false) (hb : pyWs b = false) :
    pyStrip (a :: (mid ++ [b])) = a :: (mid ++ [b]) := by
  unfold pyStrip dropEndWhile
  rw [List.dropWhile_cons, if_neg (by simp [ha])]
  have hrev : (a :: (mid ++ [b])).reverse = b :: (mid.reverse ++ [a]) := by
    simp
  rw [hrev, List.dropWhile_cons, if_neg (by simp [hb]), ← hrev, List.reverse_reverse]

/-- A nonempty text goes to the strategy chain. -/
theorem extract_some_ne_nil (cs : List Char) (d : Option (List Char)) (h : cs ≠ []) :
    extract_json_from_string (some cs) d = stage1 cs d := by
  rcases cs with _ | ⟨c, r⟩
  · exact absurd rfl h
  · rfl

/-- Scalar fenced text of the C7 counterexample. -/
def fencedScalarText : List Char :=
  ['`', '`', '`', 'j', 's', 'o', 'n', '\n', '4', '2', '\n', '`', '`', '`']

set_option maxRecDepth 8000 in
/-- C7 counterexample: a fence wrapping the valid JSON value `42` is not
recovered; the fence pattern's group demands a brace or bracket span, so
every strategy misses and the default comes back. -/
theorem scalar_fence_not_recovered :
    loadsL ['4', '2'] = some (JVal.int 42) ∧
    (extract_json_from_string (some fencedScalarText) (some ['[', ']'])).ret =
      some ['[', ']'] ∧
    (['[', ']'] : List Char) ≠ dumpsV (JVal.int 42) := by
  refine ⟨by rfl, by decide, by decide⟩

/-- C7 (amended): for a text holding one fenced block (tagged lowercase
json or untagged) whose group is a bracket-delimited span parsing as
JSON, with a backtick-free prefix, whitespace runs around the span, and
a suffix free of the closing bracket character, the extractor returns
the re-serialized inner JSON, independent of the default. -/
theorem extract_fenced_json (pre tag w1 body W post : List Char) (op closer : Char)
    (d : Option (List Char)) (v : JVal)
    (hpre : ∀ c ∈ pre, c ≠ '`')
    (htag : tag = ['j', 's', 'o', 'n'] ∨ tag = [])
    (hop : (op = '{' ∧ closer = '}') ∨ (op = '[' ∧ closer = ']'))
    (hw1 : ∀ c ∈ w1, pyWs c = true)
    (hW : ∀ c ∈ W, pyWs c = true)
    (hpost : ∀ c ∈ post, c ≠ closer)
    (hv : loadsL (op :: (body ++ [closer])) = some v) :
    extract_json_from_string
      (some (pre ++ '`' :: '`' :: '`' ::
        (tag ++ (w1 ++ op :: (body ++ closer :: (W ++ '`' :: '`' :: '`' :: post))))))
      d = okRes v := by
  rw [extract_some_ne_nil _ d (by simp)]
  unfold stage1
  rw [fenceSearch_exact pre tag w1 body W post op closer hpre htag hop hw1 hW hpost]
  have hops : pyWs op = false ∧ pyWs closer = false := by
    rcases hop with ⟨h1, h2⟩ | ⟨h1, h2⟩ <;> subst h1 <;> subst h2 <;> exact ⟨by decide, by decide⟩
  show tryNorm (pyStrip (op :: (body ++ [closer]))) _ = okRes v
  rw [pyStrip_id_of_ends op closer body hops.1 hops.2]
  unfold tryNorm
  rw [hv]

set_option maxRecDepth 8000 in
/-- The C7 theorem applied at a concrete tagged fenced object. -/
theorem extract_fenced_json_witness :
    (∀ c ∈ ([] : List Char), c ≠ '`') ∧
    ((['j', 's', 'o', 'n'] : List Char) = ['j', 's', 'o', 'n'] ∨
      (['j', 's', 'o', 'n'] : List Char) = []) ∧
    (('{' = '{' ∧ '}' = '}') ∨ ('{' = '[' ∧ '}' = ']')) ∧
    (∀ c ∈ ['\n'], pyWs c = true) ∧
    (∀ c ∈ ([] : List Char), c ≠ '}') ∧
    loadsL ('{' :: ([] ++ ['}'])) = some (JVal.obj []) ∧
    extract_json_from_string
      (some ([] ++ '`' :: '`' :: '`' ::
        (['j', 's', 'o', 'n'] ++
          (['\n'] ++ '{' :: ([] ++ '}' :: (['\n'] ++ '`' :: '`' :: '`' :: []))))))
      none = okRes (JVal.obj []) :=
  ⟨by simp, Or.inl rfl, Or.inl ⟨rfl, rfl⟩, by decide, by simp, by rfl,
   extract_fenced_json [] ['j', 's', 'o', 'n'] ['\n'] [] ['\n'] [] '{' '}' none
     (JVal.obj []) (by simp) (Or.inl rfl) (Or.inl ⟨rfl, rfl⟩) (by decide) (by decide)
     (by simp) (by rfl)⟩

/-! ## The claim's reading of the strategy chain

The following definitions transcribe the claim's words (ordered candidate
chain, first success wins, normalized re-serialization, boundary scan by
the earlier opener with its corresponding last closer) for comparison
with the extractor embedded from the source. -/

/-- The claim's boundary-scan step: choose the bracket type whose first
opening character comes earlier (objects when only a brace occurs, or
when the brace opens first) and slice to the corresponding last closing
character; no candidate when the chosen closer is missing. -/
def boundarySpec (cs : List Char) : Option (List Char) :=
  let cleaned := pyStrip cs
  let sb := pyFind cleaned '{'
  let sk := pyFind cleaned '['
  let eb := pyRfind cleaned '}'
  let ek := pyRfind cleaned ']'
  if 0 ≤ sb ∧ (sk < 0 ∨ sb < sk) then
    if 0 ≤ eb then some (pySliceN cleaned sb.toNat (eb.toNat + 1)) else none
  else if 0 ≤ sk then
    if 0 ≤ ek then some (pySliceN cleaned sk.toNat (ek.toNat + 1)) else none
  else none

/-- One step of the claim's chain: try a candidate substring when the
strategy produced one, return the re-serialized parse on success, fall
through otherwise. -/
def tryCand (cand : Option (List Char)) (k : Option (List Char)) : Option (List Char) :=
  match cand with
  | none => k
  | some c =>
    match loadsL c with
    | some v => some (dumpsV v)
    | none => k

/-- The claim's chain from the boundary-scan step. -/
def specS4 (cs : List Char) (d : Option (List Char)) : Option (List Char) :=
  tryCand (boundarySpec cs) d

/-- The claim's chain from the first-bracket-span step. -/
def specS3 (cs : List Char) (d : Option (List Char)) : Option (List Char) :=
  tryCand ((bracketSearch cs).map pyStrip) (specS4 cs d)

/-- The claim's chain from the whole-text step. -/
def specS2 (cs : List Char) (d : Option (List Char)) : Option (List Char) :=
  tryCand (some (pyStrip cs)) (specS3 cs d)

/-- The claim's full chain: fenced block, whole text, first bracket
span, boundary scan, then the default. -/
def extractSpec (cs : List Char) (d : Option (List Char)) : Option (List Char) :=
  tryCand ((fenceSearch cs).map pyStrip) (specS2 cs d)

/-- A strategy attempt and the claim's chain step return the same value
when their fallbacks agree. -/
theorem tryNorm_ret_tryCand (cand : List Char) (fb : ExtractResult)
    (k : Option (List Char)) (hfb : fb.ret = k) :
    (tryNorm cand fb).ret = tryCand (some cand) k := by
  unfold tryNorm tryCand
  dsimp only
  cases hl : loadsL cand
  · exact hfb
  · rfl

/-- A negative `str.find` means the character does not occur. -/
theorem pyFind_neg {c : Char} :
    ∀ cs : List Char, pyFind cs c < 0 → ∀ x ∈ cs, x ≠ c := by
  intro cs
  induction cs with
  | nil =>
    intro _ x hx
    simp at hx
  | cons dd r ih =>
    intro h x hx
    simp only [pyFind] at h
    split_ifs at h with hd hne
    · omega
    · rcases List.mem_cons.mp hx with rfl | hx2
      · exact hd
      · exact ih (by omega) x hx2
    · omega

/-- A negative `str.rfind` means the character does not occur. -/
theorem pyRfind_neg {c : Char} :
    ∀ cs : List Char, pyRfind cs c < 0 → ∀ x ∈ cs, x ≠ c := by
  intro cs
  induction cs with
  | nil =>
    intro _ x hx
    simp at hx
  | cons dd r ih =>
    intro h x hx
    simp only [pyRfind] at h
    split_ifs at h with ht hd
    · omega
    · omega
    · rcases List.mem_cons.mp hx with rfl | hx2
      · exact hd
      · exact ih (by omega) x hx2

/-- Decomposition at the first occurrence found by `str.find`. -/
theorem pyFind_decomp {c : Char} :
    ∀ cs : List Char, 0 ≤ pyFind cs c →
    ∃ A B, cs = A ++ c :: B ∧ (∀ x ∈ A, x ≠ c) ∧ pyFind cs c = A.length := by
  intro cs
  induction cs with
  | nil =>
    intro h
    simp [pyFind] at h
  | cons dd r ih =>
    intro h
    by_cases hd : dd = c
    · subst hd
      exact ⟨[], r, rfl, by simp, by simp [pyFind]⟩
    · simp only [pyFind] at h ⊢
      rw [if_neg hd] at h ⊢
      split_ifs at h ⊢ with ht
      · omega
      · obtain ⟨A, B, hAB, hA, hlen⟩ := ih (by omega)
        refine ⟨dd :: A, B, by rw [hAB]; rfl, ?_, ?_⟩
        · intro x hx
          rcases List.mem_cons.mp hx with rfl | hx2
          · exact hd
          · exact hA x hx2
        · simp only [List.length_cons]
          omega

/-- Decomposition at the last occurrence found by `str.rfind`. -/
theorem pyRfind_decomp {c : Char} :
    ∀ cs : List Char, 0 ≤ pyRfind cs c →
    ∃ A B, cs = A ++ c :: B ∧ (∀ x ∈ B, x ≠ c) ∧ pyRfind cs c = A.length := by
  intro cs
  induction cs with
  | nil =>
    intro h
    simp [pyRfind] at h
  | cons dd r ih =>
    intro h
    simp only [pyRfind] at h ⊢
    by_cases ht : 0 ≤ pyRfind r c
    · rw [if_pos ht] at h ⊢
      obtain ⟨A, B, hAB, hB, hlen⟩ := ih ht
      refine ⟨dd :: A, B, by rw [hAB]; rfl, hB, ?_⟩
      simp only [List.length_cons]
      omega
    · rw [if_neg ht] at h ⊢
      split_ifs at h ⊢ with hd
      · subst hd
        exact ⟨[], r, rfl, pyRfind_neg r (by omega), by simp⟩
      · omega

/-- A text splits as leading whitespace, its strip, trailing whitespace. -/
theorem pyStrip_decomp (cs : List Char) :
    ∃ w1 w2, cs = w1 ++ pyStrip cs ++ w2 ∧
      (∀ c ∈ w1, pyWs c = true) ∧ (∀ c ∈ w2, pyWs c = true) := by
  refine ⟨cs.takeWhile pyWs, ((cs.dropWhile pyWs).reverse.takeWhile pyWs).reverse,
    ?_, ?_, ?_⟩
  · have h1 : cs.takeWhile pyWs ++ cs.dropWhile pyWs = cs :=
      List.takeWhile_append_dropWhile pyWs cs
    have h2 : (cs.dropWhile pyWs).reverse.takeWhile pyWs ++
        (cs.dropWhile pyWs).reverse.dropWhile pyWs = (cs.dropWhile pyWs).reverse :=
      List.takeWhile_append_dropWhile pyWs (cs.dropWhile pyWs).reverse
    have h3 : cs.dropWhile pyWs =
        ((cs.dropWhile pyWs).reverse.dropWhile pyWs).reverse ++
          ((cs.dropWhile pyWs).reverse.takeWhile pyWs).reverse := by
      have h4 := congrArg List.reverse h2
      rw [List.reverse_append, List.reverse_reverse] at h4
      exact h4.symm
    conv_lhs => rw [← h1, h3]
    rw [List.append_assoc]
    rfl
  · intro c hc
    exact List.mem_takeWhile_imp hc
  · intro c hc
    rw [List.mem_reverse] at hc
    exact List.mem_takeWhile_imp hc

/-- `upToLast` cuts exactly at the last occurrence. -/
theorem upToLast_decomp (c : Char) (C B2 : List Char) (hB : ∀ x ∈ B2, x ≠ c) :
    upToLast c (C ++ c :: B2) = C ++ [c] := by
  unfold upToLast
  have hrev : (C ++ c :: B2).reverse = B2.reverse ++ c :: C.reverse := by
    simp
  rw [hrev, dropWhile_app B2.reverse (c :: C.reverse)
    (fun x hx => by simp [hB x (List.mem_reverse.mp hx)])
    (fun x hx => by
      simp only [List.head?_cons, Option.some.injEq] at hx
      subst hx
      simp)]
  simp

/-- The bracket regex matches at the first opening bracket when no brace
span can match before it. -/
theorem bracketSearch_first_bracket :
    ∀ P Q : List Char, (∀ x ∈ P ++ '[' :: Q, x ≠ '}') →
    (∀ x ∈ P, x ≠ '[') → Q.contains ']' = true →
    bracketSearch (P ++ '[' :: Q) = some ('[' :: upToLast ']' Q) := by
  intro P
  induction P with
  | nil =>
    intro Q hnb hP hQ
    simp only [List.nil_append, bracketSearch]
    rw [if_neg (by simp), if_pos (by simp [List.mem_of_elem_eq_true hQ])]
  | cons p P2 ih =>
    intro Q hnb hP hQ
    have hcontains : ((P2 ++ '[' :: Q).contains '}') = false := by
      cases hc : (P2 ++ '[' :: Q).contains '}'
      · rfl
      · exact absurd rfl (hnb '}' (List.mem_cons_of_mem p (List.mem_of_elem_eq_true hc)))
    simp only [List.cons_append, bracketSearch, List.append_eq]
    rw [if_neg (by rw [hcontains]; simp), if_neg (by simp [hP p (List.mem_cons_self _ _)])]
    exact ih Q (fun x hx => hnb x (List.mem_cons_of_mem _ hx))
      (fun x hx => hP x (List.mem_cons_of_mem _ hx)) hQ

/-- Two occurrence decompositions of one list, ordered by position. -/
theorem decomp_split {cleaned A B A2 B2 : List Char} {a b : Char}
    (h1 : cleaned = A ++ a :: B) (h2 : cleaned = A2 ++ b :: B2)
    (hlt : A.length < A2.length) :
    ∃ C, A2 = A ++ a :: C ∧ B = C ++ b :: B2 := by
  have htake : A2 = (A ++ a :: B).take A2.length := by
    rw [← h1, h2, List.take_left]
  rw [List.take_append_eq_append_take,
    List.take_of_length_le (le_of_lt hlt)] at htake
  obtain ⟨k, hk⟩ : ∃ k, A2.length - A.length = k + 1 :=
    ⟨A2.length - A.length - 1, by omega⟩
  rw [hk, List.take_succ_cons] at htake
  refine ⟨B.take k, htake, ?_⟩
  have heq : A ++ a :: B = A ++ a :: (B.take k ++ b :: B2) := by
    have h3 : A2 ++ b :: B2 = (A ++ a :: B.take k) ++ b :: B2 := by rw [← htake]
    rw [← h1, h2, h3]
    simp [List.append_assoc]
  have h4 := List.append_cancel_left heq
  injection h4 with _ h5

/-- The boundary slice between two occurrence decompositions. -/
theorem pySliceN_decomp {cleaned A B C B2 : List Char} {a b : Char}
    (h1 : cleaned = A ++ a :: B) (hB : B = C ++ b :: B2) :
    pySliceN cleaned A.length (A.length + C.length + 2) = a :: (C ++ [b]) := by
  unfold pySliceN
  rw [h1, List.drop_left]
  have harith : A.length + C.length + 2 - A.length = C.length + 1 + 1 := by omega
  rw [harith, hB, List.take_succ_cons, List.take_append_eq_append_take,
    List.take_of_length_le (by omega),
    show C.length + 1 - C.length = 0 + 1 from by omega, List.take_succ_cons]
  simp

/-- In the divergence corner (no brace closer, bracket pair present, the
last closer after the first opener), the first-bracket-span strategy has
already tried exactly the boundary-scan bracket slice. -/
theorem corner_slice_eq_bracket (cs : List Char)
    (heb : pyRfind (pyStrip cs) '}' < 0)
    (hsk : 0 ≤ pyFind (pyStrip cs) '[')
    (hek : 0 ≤ pyRfind (pyStrip cs) ']')
    (hlt : pyFind (pyStrip cs) '[' < pyRfind (pyStrip cs) ']') :
    ∃ m, bracketSearch cs = some m ∧
      pyStrip m =
        pySliceN (pyStrip cs) (pyFind (pyStrip cs) '[').toNat
          ((pyRfind (pyStrip cs) ']').toNat + 1) := by
  obtain ⟨A, B, h1, hA, hlen1⟩ := pyFind_decomp (pyStrip cs) hsk
  obtain ⟨A2, B2, h2, hB2, hlen2⟩ := pyRfind_decomp (pyStrip cs) hek
  have hlen : A.length < A2.length := by
    rw [hlen1, hlen2] at hlt
    exact_mod_cast hlt
  obtain ⟨C, hA2, hBC⟩ := decomp_split h1 h2 hlen
  obtain ⟨w1, w2, hcs, hw1, hw2⟩ := pyStrip_decomp cs
  have hcs2 : cs = (w1 ++ A) ++ '[' :: (B ++ w2) := by
    rw [hcs, h1]
    simp [List.append_assoc]
  have hm := bracketSearch_first_bracket (w1 ++ A) (B ++ w2)
    (by
      intro x hx
      rw [← hcs2, hcs] at hx
      rcases List.mem_append.mp hx with hx | hx
      · rcases List.mem_append.mp hx with hx | hx
        · intro he
          subst he
          exact absurd (hw1 _ hx) (by decide)
        · exact pyRfind_neg (pyStrip cs) heb x hx
      · intro he
        subst he
        exact absurd (hw2 _ hx) (by decide))
    (by
      intro x hx
      rcases List.mem_append.mp hx with hx | hx
      · intro he
        subst he
        exact absurd (hw1 _ hx) (by decide)
      · exact hA x hx)
    (by
      refine List.elem_eq_true_of_mem ?_
      rw [hBC]
      exact List.mem_append.mpr (Or.inl (List.mem_append.mpr (Or.inr
        (List.mem_cons_self _ _)))))
  rw [← hcs2] at hm
  refine ⟨_, hm, ?_⟩
  have hQ2 : B ++ w2 = C ++ ']' :: (B2 ++ w2) := by
    rw [hBC]
    simp [List.append_assoc]
  rw [hQ2, upToLast_decomp ']' C (B2 ++ w2)
    (by
      intro x hx
      rcases List.mem_append.mp hx with hx | hx
      · exact hB2 x hx
      · intro he
        subst he
        exact absurd (hw2 _ hx) (by decide))]
  rw [pyStrip_id_of_ends '[' ']' C (by decide) (by decide)]
  have hskn : (pyFind (pyStrip cs) '[').toNat = A.length := by
    rw [hlen1]
    exact Int.toNat_natCast _
  have hekn : (pyRfind (pyStrip cs) ']').toNat + 1 = A.length + C.length + 2 := by
    rw [hlen2, hA2]
    simp only [Int.toNat_natCast, List.length_append, List.length_cons]
    omega
  rw [hskn, hekn]
  exact (pySliceN_decomp h1 hBC).symm

/-- Strategy 4 of the source returns the same value as the claim's
boundary scan, given that the first-bracket-span candidate has already
failed whenever it exists. -/
theorem stage4_ret (cs : List Char) (d : Option (List Char))
    (h3 : ∀ m, bracketSearch cs = some m → loadsL (pyStrip m) = none) :
    (stage4 cs d).ret = specS4 cs d := by
  unfold stage4 specS4 boundarySpec
  dsimp only
  by_cases hP1 : 0 ≤ pyFind (pyStrip cs) '{' ∧
      (pyFind (pyStrip cs) '[' < 0 ∨ pyFind (pyStrip cs) '{' < pyFind (pyStrip cs) '[')
  · by_cases heb : 0 ≤ pyRfind (pyStrip cs) '}'
    · rw [if_pos ⟨hP1.1, heb, hP1.2⟩, if_pos hP1, if_pos heb]
      exact tryNorm_ret_tryCand _ _ d rfl
    · rw [if_neg (fun hc => heb hc.2.1), if_pos hP1, if_neg heb]
      by_cases hc2 : 0 ≤ pyFind (pyStrip cs) '[' ∧ 0 ≤ pyRfind (pyStrip cs) ']'
      · rw [if_pos hc2]
        rcases lt_trichotomy (pyFind (pyStrip cs) '[') (pyRfind (pyStrip cs) ']') with
          hlt | heq | hgt
        · obtain ⟨m, hbm, hsl⟩ := corner_slice_eq_bracket cs (by omega) hc2.1 hc2.2 hlt
          have hnone : loadsL (pySliceN (pyStrip cs) (pyFind (pyStrip cs) '[').toNat
              ((pyRfind (pyStrip cs) ']').toNat + 1)) = none := by
            rw [← hsl]
            exact h3 m hbm
          unfold tryNorm
          rw [hnone]
          rfl
        · obtain ⟨A, B, h1, _, hlen1⟩ := pyFind_decomp (pyStrip cs) hc2.1
          obtain ⟨A2, B2, h2, _, hlen2⟩ := pyRfind_decomp (pyStrip cs) hc2.2
          have hlen : A.length = A2.length := by
            rw [hlen1, hlen2] at heq
            exact_mod_cast heq
          have h12 : A ++ '[' :: B = A2 ++ ']' :: B2 := by rw [← h1, h2]
          have h5 := (List.append_inj h12 hlen).2
          injection h5 with h6
          exact absurd h6 (by decide)
        · have h0 : (pyRfind (pyStrip cs) ']').toNat + 1 -
              (pyFind (pyStrip cs) '[').toNat = 0 := by omega
          unfold pySliceN
          rw [h0, List.take_zero]
          unfold tryNorm
          rw [show loadsL ([] : List Char) = none from rfl]
          rfl
      · rw [if_neg hc2]
        rfl
  · have hc1 : ¬(0 ≤ pyFind (pyStrip cs) '{' ∧ 0 ≤ pyRfind (pyStrip cs) '}' ∧
        (pyFind (pyStrip cs) '[' < 0 ∨
          pyFind (pyStrip cs) '{' < pyFind (pyStrip cs) '[')) :=
      fun hc => hP1 ⟨hc.1, hc.2.2⟩
    rw [if_neg hc1, if_neg hP1]
    by_cases hsk : 0 ≤ pyFind (pyStrip cs) '['
    · rw [if_pos hsk]
      by_cases hek : 0 ≤ pyRfind (pyStrip cs) ']'
      · rw [if_pos ⟨hsk, hek⟩, if_pos hek]
        exact tryNorm_ret_tryCand _ _ d rfl
      · rw [if_neg (fun hc => hek hc.2), if_neg hek]
        rfl
    · rw [if_neg (fun hc => hsk hc.1), if_neg hsk]
      rfl

/-- Strategy 3 of the source returns the same value as the claim's chain
from the first-bracket-span step. -/
theorem stage3_ret (cs : List Char) (d : Option (List Char)) :
    (stage3 cs d).ret = specS3 cs d := by
  unfold stage3 specS3
  cases hb : bracketSearch cs with
  | none =>
    dsimp only [Option.map]
    show (stage4 cs d).ret = specS4 cs d
    exact stage4_ret cs d (fun m hm => by rw [hb] at hm; cases hm)
  | some m =>
    dsimp only [Option.map]
    cases hl : loadsL (pyStrip m) with
    | some v =>
      unfold tryNorm tryCand
      dsimp only
      rw [hl]
      rfl
    | none =>
      unfold tryNorm tryCand
      dsimp only
      rw [hl]
      dsimp only
      exact stage4_ret cs d (fun m2 hm2 => by
        rw [hb] at hm2
        injection hm2 with hmm
        rw [← hmm]
        exact hl)

/-- Strategy 2 of the source returns the same value as the claim's chain
from the whole-text step. -/
theorem stage2_ret (cs : List Char) (d : Option (List Char)) :
    (stage2 cs d).ret = specS2 cs d := by
  unfold stage2 specS2
  cases hl : loadsL (pyStrip cs) with
  | some v =>
    unfold tryNorm tryCand
    dsimp only
    rw [hl]
    rfl
  | none =>
    unfold tryNorm tryCand
    dsimp only
    rw [hl]
    exact stage3_ret cs d

/-- C1: for every nonempty text and every default, the extractor's return
value equals the claim's chain: strategies tried in the fixed order
fenced-block, whole-text, first-bracket-span, boundary-scan, first
parsing candidate wins and is returned re-serialized, with the
boundary scan slicing from the earlier first opener to its
corresponding last closer (objects when the brace opens first). -/
theorem extract_strategy_order (cs : List Char) (d : Option (List Char)) (h : cs ≠ []) :
    (extract_json_from_string (some cs) d).ret = extractSpec cs d := by
  rw [extract_some_ne_nil cs d h]
  unfold stage1 extractSpec
  cases hf : fenceSearch cs with
  | none =>
    dsimp only [Option.map]
    exact stage2_ret cs d
  | some g =>
    dsimp only [Option.map]
    cases hl : loadsL (pyStrip g) with
    | some v =>
      unfold tryNorm tryCand
      dsimp only
      rw [hl]
      rfl
    | none =>
      unfold tryNorm tryCand
      dsimp only
      rw [hl]
      dsimp only
      exact stage2_ret cs d

/-- The C1 theorem applied at a concrete nonempty text. -/
theorem extract_strategy_order_witness :
    (['x', '{', '}'] : List Char) ≠ [] ∧
    (extract_json_from_string (some ['x', '{', '}']) none).ret =
      extractSpec ['x', '{', '}'] none :=
  ⟨by decide, extract_strategy_order ['x', '{', '}'] none (by decide)⟩
